import Mathlib

/-!
Verification of the GCP inventory report generator.

The repository has two parallel implementations:
* `src/inventory.py` — the top-level script (modelled in namespace `Inventory`);
* `src/gcp_inventory/inventory.py` — the packaged module (namespace `GcpInventory`).

External effects (subprocess output, the Cloud Asset iterator, the storage
client, the spreadsheet writer) are modelled as explicit inputs; Python strings
are modelled as Lean `String`s, Python `str` slicing, `str.strip` and decimal
rendering of integers are modelled below.
-/

/-! ## Python string primitives -/

/-- Python `s[:n]` for a non-negative literal bound `n`. -/
def strTake (s : String) (n : Nat) : String := ⟨s.data.take n⟩

/-- Python `s[:k]` for a possibly negative `k`: a negative bound counts from
the end (`s[:k] = s[0 : len(s)+k]`, empty when `len(s)+k ≤ 0`). -/
def pySlice (s : String) (k : Int) : String :=
  if 0 ≤ k then ⟨s.data.take k.toNat⟩ else ⟨s.data.take ((s.data.length : Int) + k).toNat⟩

/-- Python's whitespace test for `str.strip()`: the code points `str.isspace`
recognises — `\t \n \v \f \r`, the separators `\x1c`–`\x1f`, the space, next
line `\x85`, no-break space `\xa0`, Ogham space `\x1680`, the typographic
spaces `\x2000`–`\x200a`, the line and paragraph separators `\x2028`/`\x2029`,
narrow and medium spaces `\x202f`/`\x205f`, and the ideographic space
`\x3000`. -/
def pyIsSpace (c : Char) : Bool :=
  (9 ≤ c.toNat && c.toNat ≤ 13) || (28 ≤ c.toNat && c.toNat ≤ 32) ||
  c.toNat = 133 || c.toNat = 160 || c.toNat = 5760 ||
  (8192 ≤ c.toNat && c.toNat ≤ 8202) || c.toNat = 8232 || c.toNat = 8233 ||
  c.toNat = 8239 || c.toNat = 8287 || c.toNat = 12288

/-- Python `s.strip()`: drop leading and trailing whitespace. -/
def pyStrip (s : String) : String :=
  ⟨((s.data.dropWhile pyIsSpace).reverse.dropWhile pyIsSpace).reverse⟩

/-- The largest length of a string in the list (0 for the empty list). -/
def maxLen (l : List String) : Nat := l.foldr (fun s a => max s.length a) 0

theorem length_le_maxLen {l : List String} {s : String} (h : s ∈ l) : s.length ≤ maxLen l := by
  induction l with
  | nil => cases h
  | cons a t ih =>
    rcases List.mem_cons.mp h with rfl | h'
    · exact le_max_left _ _
    · exact le_trans (ih h') (le_max_right _ _)

theorem pyStrip_eq_self {s : String}
    (hhead : ∀ c, s.data.head? = some c → pyIsSpace c = false)
    (hlast : ∀ c, s.data.getLast? = some c → pyIsSpace c = false) :
    pyStrip s = s := by
  have h1 : s.data.dropWhile pyIsSpace = s.data := by
    cases hd : s.data with
    | nil => rfl
    | cons a t =>
      have ha : pyIsSpace a = false := hhead a (by simp [hd])
      simp [List.dropWhile, ha]
  have h2 : s.data.reverse.dropWhile pyIsSpace = s.data.reverse := by
    cases hr : s.data.reverse with
    | nil => rfl
    | cons a t =>
      have ha : s.data.getLast? = some a := by
        rw [← List.head?_reverse]; simp [hr]
      have ha' : pyIsSpace a = false := hlast a ha
      simp [List.dropWhile, ha']
  cases s with
  | mk d => simp only [pyStrip, h1, h2, List.reverse_reverse]

/-! ## Decimal rendering (Python `str(i)` / f-string interpolation) -/

/-- The character of a decimal digit. -/
def digitChar (d : Nat) : Char := Char.ofNat (48 + d)

/-- Digits of `n`, most significant first; `fuel` bounds the recursion and
any `fuel > n` is enough. -/
def decDigitsCore : Nat → Nat → List Char
  | 0, _ => []
  | fuel+1, n => if n < 10 then [digitChar n] else decDigitsCore fuel (n / 10) ++ [digitChar (n % 10)]

/-- The decimal digit list of `n` (what Python's `str` renders for a
non-negative integer). -/
def decDigits (n : Nat) : List Char := decDigitsCore (n + 1) n

/-- Python `str(n)` for a natural number. -/
def decRepr (n : Nat) : String := ⟨decDigits n⟩

theorem decDigitsCore_fuel {f g n : Nat} (hf : n < f) (hg : n < g) :
    decDigitsCore f n = decDigitsCore g n := by
  induction n using Nat.strong_induction_on generalizing f g with
  | _ n ih =>
    match f, g with
    | f'+1, g'+1 =>
      by_cases h : n < 10
      · simp [decDigitsCore, h]
      · have hdiv : n / 10 < n := Nat.div_lt_self (by omega) (by omega)
        have : decDigitsCore f' (n / 10) = decDigitsCore g' (n / 10) :=
          ih (n / 10) hdiv (by omega) (by omega)
        simp [decDigitsCore, h, this]

theorem decDigits_small {n : Nat} (h : n < 10) : decDigits n = [digitChar n] := by
  simp [decDigits, decDigitsCore, h]

theorem decDigits_step {n : Nat} (h : 10 ≤ n) :
    decDigits n = decDigits (n / 10) ++ [digitChar (n % 10)] := by
  have hdiv : n / 10 < n := Nat.div_lt_self (by omega) (by omega)
  have : decDigitsCore (n + 1) n =
      decDigitsCore n (n / 10) ++ [digitChar (n % 10)] := by
    simp [decDigitsCore, Nat.not_lt.mpr h]
  rw [decDigits, this, decDigits, decDigitsCore_fuel (f := n) (g := n / 10 + 1) (by omega) (by omega)]

theorem decDigits_ne_nil (n : Nat) : decDigits n ≠ [] := by
  by_cases h : n < 10
  · simp [decDigits_small h]
  · rw [decDigits_step (Nat.not_lt.mp h)]
    simp

theorem decDigits_length_pos (n : Nat) : 0 < (decDigits n).length :=
  List.length_pos.mpr (decDigits_ne_nil n)

/-- Upper bound on digit count: `n < 10 ^ d` gives at most `d` digits. -/
theorem decDigits_length_le {n d : Nat} (hd : 1 ≤ d) (h : n < 10 ^ d) :
    (decDigits n).length ≤ d := by
  induction d generalizing n with
  | zero => omega
  | succ d ih =>
    by_cases hsmall : n < 10
    · simp [decDigits_small hsmall]
    · have hd1 : 1 ≤ d := by
        rcases Nat.eq_zero_or_pos d with rfl | hpos
        · rw [pow_one] at h; omega
        · exact hpos
      have hdiv : n / 10 < 10 ^ d := by
        rw [Nat.div_lt_iff_lt_mul (by norm_num : 0 < 10)]
        calc n < 10 ^ (d + 1) := h
          _ = 10 ^ d * 10 := by ring
      rw [decDigits_step (by omega)]
      simp only [List.length_append, List.length_singleton]
      have := ih hd1 hdiv
      omega

/-- Lower bound on digit count: `10 ^ d ≤ n` gives more than `d` digits. -/
theorem decDigits_length_gt {n d : Nat} (h : 10 ^ d ≤ n) :
    d < (decDigits n).length := by
  induction d generalizing n with
  | zero => exact decDigits_length_pos n
  | succ d ih =>
    have h10 : 10 ≤ n := by
      have : (10 : Nat) ^ 1 ≤ 10 ^ (d + 1) := Nat.pow_le_pow_right (by norm_num) (by omega)
      rw [pow_one] at this
      omega
    have hdiv : 10 ^ d ≤ n / 10 := by
      rw [Nat.le_div_iff_mul_le (by norm_num)]
      calc 10 ^ d * 10 = 10 ^ (d + 1) := by ring
        _ ≤ n := h
    rw [decDigits_step h10]
    simp only [List.length_append, List.length_singleton]
    have := ih hdiv
    omega

theorem digitChar_isDigit {d : Nat} (h : d < 10) : (digitChar d).isDigit = true := by
  interval_cases d <;> decide

/-- Every character of a decimal rendering is a digit. -/
theorem decDigits_all_digit (n : Nat) : ∀ c ∈ decDigits n, c.isDigit = true := by
  induction n using Nat.strong_induction_on with
  | _ n ih =>
    intro c hc
    by_cases h : n < 10
    · rw [decDigits_small h] at hc
      simp at hc
      exact hc ▸ digitChar_isDigit h
    · rw [decDigits_step (by omega)] at hc
      rcases List.mem_append.mp hc with h1 | h2
      · exact ih (n / 10) (Nat.div_lt_self (by omega) (by omega)) c h1
      · simp at h2
        exact h2 ▸ digitChar_isDigit (Nat.mod_lt _ (by norm_num))

/-- Reading digits back (the left inverse that makes `decDigits` injective). -/
def digitsVal (l : List Char) : Nat := l.foldl (fun a c => 10 * a + (c.toNat - 48)) 0

theorem digitsVal_append_singleton (l : List Char) (c : Char) :
    digitsVal (l ++ [c]) = 10 * digitsVal l + (c.toNat - 48) := by
  simp [digitsVal, List.foldl_append]

theorem digitChar_toNat {d : Nat} (h : d < 10) : (digitChar d).toNat = 48 + d := by
  interval_cases d <;> decide

theorem digitsVal_decDigits (n : Nat) : digitsVal (decDigits n) = n := by
  induction n using Nat.strong_induction_on with
  | _ n ih =>
    by_cases h : n < 10
    · rw [decDigits_small h]
      simp [digitsVal, digitChar_toNat h]
    · rw [decDigits_step (by omega), digitsVal_append_singleton,
        ih (n / 10) (Nat.div_lt_self (by omega) (by omega)),
        digitChar_toNat (Nat.mod_lt _ (by norm_num))]
      omega

theorem decDigits_injective : Function.Injective decDigits := by
  intro a b h
  have := digitsVal_decDigits a
  rw [h, digitsVal_decDigits] at this
  omega

theorem decRepr_injective : Function.Injective decRepr := by
  intro a b h
  exact decDigits_injective (congrArg String.data h)

/-! ## Sheet-name sanitizers

Both implementations build disambiguation candidates `base[:31-len("_i")] + "_i"`
for `i = 1, 2, …` until the candidate is unused. The loops are modelled with a
fuel parameter; `sanitizeFuel` below provably suffices for every used-name set
(`candidateCore_big_fresh`), so the models agree with the unbounded Python
loops wherever those terminate — and they always do. -/

/-- The characters Excel forbids in sheet names: `: \ / ? * [ ]`. -/
def invalidSheetChars : List Char := [':', '\\', '/', '?', '*', '[', ']']

/-- Python `f"_{i}"`. -/
def suffixStr (i : Nat) : String := "_" ++ decRepr i

/-- `base[:31 - len(suffix)] + suffix`, the shape of every disambiguation
candidate in both sanitizers. -/
def candidateCore (base : String) (i : Nat) : String :=
  pySlice base (31 - ((suffixStr i).length : Int)) ++ suffixStr i

/-- More fuel than any collision loop can consume on `used`
(see `candidateCore_big_fresh`). -/
def sanitizeFuel (used : List String) : Nat := 10 ^ (maxLen used + 62)

namespace Inventory

/-- Step 1 of `sanitize`: an invalid character becomes an underscore. -/
def replaceChar (c : Char) : Char := if c ∈ invalidSheetChars then '_' else c

/-- `''.join('_' if c in invalid else c for c in name)` (src/inventory.py:168). -/
def replaceInvalid (name : String) : String := ⟨name.data.map replaceChar⟩

/-- The candidate of attempt `i` exactly as src/inventory.py:173-175 builds it:
the slice is guarded by `len(base) + len(suffix) > 31`. -/
def candidate (base : String) (i : Nat) : String :=
  let suffix := suffixStr i
  if base.length + suffix.length > 31 then pySlice base (31 - (suffix.length : Int)) ++ suffix
  else base ++ suffix

/-- The `while s in used or s == '':` loop of `sanitize` (src/inventory.py:172-176). -/
def sanLoop (base : String) (used : List String) : Nat → Nat → String
  | _, 0 => ""
  | i, fuel+1 =>
    let s := candidate base i
    if s ∈ used ∨ s = "" then sanLoop base used (i+1) fuel else s

/-- `sanitize(name, used)` of src/inventory.py:165-178; the returned pair is
the chosen name and the used set after `used.add(s)`. -/
def sanitize (name : String) (used : List String) : String × List String :=
  let s := strTake (replaceInvalid name) 31
  let r := if s ∈ used ∨ s = "" then sanLoop s used 1 (sanitizeFuel used) else s
  (r, r :: used)

end Inventory

namespace GcpInventory

/-- `INVALID_SHEET_CHARS = set(r":\\/*?[]")` — the same seven characters
(the raw string repeats the backslash). -/
def INVALID_SHEET_CHARS : List Char := [':', '\\', '/', '*', '?', '[', ']']

/-- `''.join(ch for ch in name if ch not in INVALID_SHEET_CHARS)`
(gcp_inventory/inventory.py:31). -/
def removeInvalid (name : String) : String :=
  ⟨name.data.filter fun c => !decide (c ∈ INVALID_SHEET_CHARS)⟩

/-- The candidate of attempt `i`:
`(base[:MAX_SHEET_LEN - len(tail)] + tail).strip()` (line 37). -/
def candidate (base : String) (i : Nat) : String := pyStrip (candidateCore base i)

/-- The `while out in used_names:` loop (lines 35-38). -/
def sanLoop (base : String) (used : List String) : Nat → Nat → String
  | _, 0 => ""
  | i, fuel+1 =>
    let out := candidate base i
    if out ∈ used then sanLoop base used (i+1) fuel else out

/-- `sanitize_sheet_name(name, used_names)` (gcp_inventory/inventory.py:29-40);
`out[:MAX_SHEET_LEN].strip() or 'sheet'` keeps `out` when it is non-empty. -/
def sanitize_sheet_name (name : String) (used_names : List String) : String × List String :=
  let out0 := pyStrip (strTake (removeInvalid name) 31)
  let out := if out0 = "" then "sheet" else out0
  let r := if out ∈ used_names then sanLoop out used_names 1 (sanitizeFuel used_names) else out
  (r, r :: used_names)

end GcpInventory

/-! ### Facts about disambiguation candidates -/

theorem suffixStr_data (i : Nat) : (suffixStr i).data = '_' :: decDigits i := by
  show (("_" : String) ++ decRepr i).data = _
  rw [String.data_append]
  rfl

theorem suffixStr_length (i : Nat) : (suffixStr i).length = 1 + (decDigits i).length := by
  show (suffixStr i).data.length = _
  rw [suffixStr_data]
  simp
  omega

theorem suffixStr_length_le {i : Nat} (h : i < 10 ^ 30) : (suffixStr i).length ≤ 31 := by
  have := decDigits_length_le (d := 30) (by norm_num) h
  rw [suffixStr_length]
  omega

theorem suffixStr_injective : Function.Injective suffixStr := by
  intro a b h
  have := congrArg String.data h
  rw [suffixStr_data, suffixStr_data] at this
  exact decDigits_injective (List.cons_injective this)

theorem candidateCore_data {base : String} {i : Nat} (h : (suffixStr i).length ≤ 31) :
    (candidateCore base i).data =
      base.data.take (31 - (suffixStr i).length) ++ ('_' :: decDigits i) := by
  have hk : (0 : Int) ≤ 31 - ((suffixStr i).length : Int) := by omega
  have hn : ((31 : Int) - ((suffixStr i).length : Int)).toNat = 31 - (suffixStr i).length := by
    omega
  rw [candidateCore, String.data_append, suffixStr_data, pySlice, if_pos hk, hn]

theorem candidateCore_length {base : String} {i : Nat} (h : (suffixStr i).length ≤ 31) :
    (candidateCore base i).length =
      min (31 - (suffixStr i).length) base.length + (suffixStr i).length := by
  show (candidateCore base i).data.length = _
  rw [candidateCore_data h, List.length_append, List.length_take, List.length_cons]
  have hb : base.length = base.data.length := rfl
  have hs : (suffixStr i).length = (decDigits i).length + 1 := by
    rw [suffixStr_length]; omega
  omega

theorem candidateCore_length_le {base : String} {i : Nat} (h : (suffixStr i).length ≤ 31) :
    (candidateCore base i).length ≤ 31 := by
  rw [candidateCore_length h]
  omega

theorem candidateCore_ne_empty (base : String) (i : Nat) : candidateCore base i ≠ "" := by
  intro he
  have := congrArg String.data he
  rw [candidateCore, String.data_append, suffixStr_data] at this
  simp at this

/-- The candidate built by src/inventory.py:175 equals the unguarded slice:
when the guard `len(base) + len(suffix) > 31` fails, the slice keeps all of
`base` anyway. -/
theorem Inventory.candidate_eq_core (base : String) (i : Nat) :
    Inventory.candidate base i = candidateCore base i := by
  rw [Inventory.candidate, candidateCore]
  by_cases hb : base.length + (suffixStr i).length > 31
  · simp only [if_pos hb]
  · simp only [if_neg hb]
    have hl : (suffixStr i).length ≤ 31 := by omega
    have hk : (0 : Int) ≤ 31 - ((suffixStr i).length : Int) := by omega
    have hn : ((31 : Int) - ((suffixStr i).length : Int)).toNat = 31 - (suffixStr i).length := by
      omega
    rw [pySlice, if_pos hk, hn]
    have hble : base.data.length ≤ 31 - (suffixStr i).length := by
      have : base.length = base.data.length := rfl
      omega
    rw [List.take_of_length_le hble]

theorem candidateCore_inj_aux {base : String} {i j : Nat}
    (hi : (suffixStr i).length ≤ 31) (hj : (suffixStr j).length ≤ 31)
    (hlt : (suffixStr i).length < (suffixStr j).length)
    (h : candidateCore base i = candidateCore base j) : False := by
  have hdata := congrArg String.data h
  rw [candidateCore_data hi, candidateCore_data hj] at hdata
  have hli : (suffixStr i).length = (decDigits i).length + 1 := by rw [suffixStr_length]; omega
  have hlj : (suffixStr j).length = (decDigits j).length + 1 := by rw [suffixStr_length]; omega
  have hlen := congrArg List.length hdata
  rw [List.length_append, List.length_append, List.length_take, List.length_take,
    List.length_cons, List.length_cons] at hlen
  set b := base.data.length with hbdef
  set li := (suffixStr i).length with hlidef
  set lj := (suffixStr j).length with hljdef
  by_cases hb : b ≤ 31 - lj
  · omega
  · have hmli : min (31 - li) b = 31 - li := by omega
    have hmlj : min (31 - lj) b = 31 - lj := by omega
    have htil : (base.data.take (31 - li)).length = 31 - li := by
      rw [List.length_take]; omega
    have htjl : (base.data.take (31 - lj)).length = 31 - lj := by
      rw [List.length_take]; omega
    have hq := congrArg (fun l => l[31 - li]?) hdata
    simp only at hq
    rw [List.getElem?_append_right (by omega), htil, Nat.sub_self,
      List.getElem?_cons_zero] at hq
    rw [List.getElem?_append_right (by omega), htjl] at hq
    have hoff : 31 - li - (31 - lj) = lj - li := by omega
    rw [hoff] at hq
    have hsucc : lj - li = (lj - li - 1) + 1 := by omega
    rw [hsucc, List.getElem?_cons_succ] at hq
    have hmem : '_' ∈ decDigits j := List.getElem?_mem hq.symm
    have := decDigits_all_digit j '_' hmem
    simp at this

/-- Distinct attempt indices with suffixes that still fit give distinct
candidates over any base. -/
theorem candidateCore_inj {base : String} {i j : Nat}
    (hi : (suffixStr i).length ≤ 31) (hj : (suffixStr j).length ≤ 31)
    (h : candidateCore base i = candidateCore base j) : i = j := by
  rcases lt_trichotomy (suffixStr i).length (suffixStr j).length with hlt | heq | hgt
  · exact absurd h (fun hc => candidateCore_inj_aux hi hj hlt hc)
  · have hdata := congrArg String.data h
    rw [candidateCore_data hi, candidateCore_data hj, heq] at hdata
    have := List.append_inj hdata rfl
    have hcons : ('_' :: decDigits i) = ('_' :: decDigits j) := this.2
    have : decDigits i = decDigits j := by
      injection hcons
    exact decDigits_injective this
  · exact absurd h.symm (fun hc => candidateCore_inj_aux hj hi hgt hc)

/-! ### A fresh candidate exists within `sanitizeFuel` attempts -/

theorem decDigits_pow_length (M : Nat) : (decDigits (10 ^ M)).length = M + 1 := by
  have h1 := decDigits_length_gt (n := 10 ^ M) (d := M) le_rfl
  have h2 : (decDigits (10 ^ M)).length ≤ M + 1 :=
    decDigits_length_le (by omega) (Nat.pow_lt_pow_right (by norm_num) (Nat.lt_succ_self M))
  omega

theorem candidateCore_big {base : String} (hb : base.length ≤ 31) {M : Nat} (hM : 62 ≤ M) :
    candidateCore base (10 ^ M) = suffixStr (10 ^ M) ∧
    (suffixStr (10 ^ M)).length = M + 2 := by
  have hlen : (suffixStr (10 ^ M)).length = M + 2 := by
    rw [suffixStr_length, decDigits_pow_length]
    omega
  refine ⟨?_, hlen⟩
  rw [candidateCore, pySlice]
  have hneg : ¬ (0 : Int) ≤ 31 - ((suffixStr (10 ^ M)).length : Int) := by
    rw [hlen]
    omega
  rw [if_neg hneg]
  have hb' : base.data.length ≤ 31 := hb
  have h0 : ((base.data.length : Int) + (31 - ((suffixStr (10 ^ M)).length : Int))).toNat = 0 := by
    rw [hlen]
    omega
  rw [h0, List.take_zero]
  rfl

theorem sanitizeFuel_pos (used : List String) : 1 ≤ sanitizeFuel used :=
  Nat.one_le_iff_ne_zero.mpr (pow_ne_zero _ (by norm_num))

/-- The candidate at attempt `sanitizeFuel used` is longer than every member
of `used`, hence unused: the collision loops stop within their fuel. -/
theorem candidateCore_big_fresh {base : String} (hb : base.length ≤ 31) (used : List String) :
    candidateCore base (sanitizeFuel used) ∉ used := by
  intro hmem
  obtain ⟨heq, hlen⟩ := candidateCore_big hb (M := maxLen used + 62) (by omega)
  rw [sanitizeFuel] at hmem
  rw [heq] at hmem
  have := length_le_maxLen hmem
  rw [hlen] at this
  omega

/-! ### Characters of sanitized names -/

theorem digit_not_invalid {c : Char} (h : c.isDigit = true) : c ∉ invalidSheetChars := by
  intro hc
  fin_cases hc <;> simp [Char.isDigit] at h

theorem suffixStr_not_invalid {i : Nat} {c : Char} (h : c ∈ (suffixStr i).data) :
    c ∉ invalidSheetChars := by
  rw [suffixStr_data] at h
  rcases List.mem_cons.mp h with rfl | hd
  · decide
  · exact digit_not_invalid (decDigits_all_digit i c hd)

theorem gcp_invalid_iff {c : Char} :
    c ∈ GcpInventory.INVALID_SHEET_CHARS ↔ c ∈ invalidSheetChars := by
  constructor <;> intro h <;> fin_cases h <;> decide

/-! ### The collision loops return the first fresh candidate -/

namespace Inventory

/-- Attempt `k` leaves the loop of `sanitize`: the candidate is unused and
non-empty. -/
def freshAt (base : String) (used : List String) (k : Nat) : Prop :=
  candidate base k ∉ used ∧ candidate base k ≠ ""

theorem sanLoop_spec {base : String} {used : List String} :
    ∀ fuel i, (∃ k, i ≤ k ∧ k < i + fuel ∧ freshAt base used k) →
    ∃ k, i ≤ k ∧ freshAt base used k ∧
      (∀ m, i ≤ m → m < k → ¬ freshAt base used m) ∧
      sanLoop base used i fuel = candidate base k := by
  intro fuel
  induction fuel with
  | zero =>
    rintro i ⟨k, h1, h2, -⟩
    omega
  | succ fuel ih =>
    intro i hex
    by_cases h : candidate base i ∈ used ∨ candidate base i = ""
    · have hnf : ¬ freshAt base used i := by
        rintro ⟨hf1, hf2⟩
        rcases h with h | h
        · exact hf1 h
        · exact hf2 h
      obtain ⟨k, hk1, hk2, hkf⟩ := hex
      have hki : i ≠ k := fun he => hnf (he ▸ hkf)
      obtain ⟨k', h1, h2, h3, h4⟩ := ih (i + 1) ⟨k, by omega, by omega, hkf⟩
      refine ⟨k', by omega, h2, ?_, ?_⟩
      · intro m hm1 hm2
        rcases Nat.eq_or_lt_of_le hm1 with rfl | hlt
        · exact hnf
        · exact h3 m (by omega) hm2
      · rw [sanLoop, if_pos h]
        exact h4
    · push_neg at h
      refine ⟨i, le_refl i, ⟨h.1, h.2⟩, fun m hm1 hm2 => absurd (lt_of_le_of_lt hm1 hm2) (lt_irrefl i), ?_⟩
      rw [sanLoop, if_neg]
      push_neg
      exact h

/-- `sanitize` with an unused, non-empty sanitized label returns it as is. -/
theorem sanitize_no_collision {name : String} {used : List String}
    (h1 : strTake (replaceInvalid name) 31 ∉ used)
    (h2 : strTake (replaceInvalid name) 31 ≠ "") :
    sanitize name used =
      (strTake (replaceInvalid name) 31, strTake (replaceInvalid name) 31 :: used) := by
  rw [sanitize, if_neg]
  push_neg
  exact ⟨h1, h2⟩

/-- On a collision (or an empty sanitized label) `sanitize` returns the
candidate of the least attempt index that is unused; every smaller attempt
collides. -/
theorem sanitize_collision {name : String} {used : List String}
    (h : strTake (replaceInvalid name) 31 ∈ used ∨ strTake (replaceInvalid name) 31 = "") :
    ∃ k, 1 ≤ k ∧
      candidate (strTake (replaceInvalid name) 31) k ∉ used ∧
      candidate (strTake (replaceInvalid name) 31) k ≠ "" ∧
      (∀ m, 1 ≤ m → m < k →
        candidate (strTake (replaceInvalid name) 31) m ∈ used ∨
        candidate (strTake (replaceInvalid name) 31) m = "") ∧
      sanitize name used = (candidate (strTake (replaceInvalid name) 31) k,
        candidate (strTake (replaceInvalid name) 31) k :: used) := by
  set base := strTake (replaceInvalid name) 31 with hbase
  have hblen : base.length ≤ 31 := by
    rw [hbase]
    show ((replaceInvalid name).data.take 31).length ≤ 31
    rw [List.length_take]
    omega
  have hex : ∃ k, 1 ≤ k ∧ k < 1 + sanitizeFuel used ∧ freshAt base used k := by
    refine ⟨sanitizeFuel used, sanitizeFuel_pos used, by omega, ?_, ?_⟩
    · rw [candidate_eq_core]
      exact candidateCore_big_fresh hblen used
    · rw [candidate_eq_core]
      exact candidateCore_ne_empty base _
  obtain ⟨k, hk1, ⟨hkf1, hkf2⟩, hmin, hloop⟩ := sanLoop_spec (sanitizeFuel used) 1 hex
  refine ⟨k, hk1, hkf1, hkf2, ?_, ?_⟩
  · intro m hm1 hm2
    have := hmin m hm1 hm2
    rw [freshAt] at this
    push_neg at this
    by_cases hmem : candidate base m ∈ used
    · exact Or.inl hmem
    · exact Or.inr (this hmem)
  · rw [sanitize, if_pos h, hloop]

end Inventory

theorem isDigit_toNat {c : Char} (h : c.isDigit = true) :
    48 ≤ c.toNat ∧ c.toNat ≤ 57 := by
  rw [Char.isDigit] at h
  simp only [Bool.and_eq_true, decide_eq_true_eq, Char.le_def] at h
  exact ⟨h.1, h.2⟩

theorem digit_not_space {c : Char} (h : c.isDigit = true) : pyIsSpace c = false := by
  have hb := isDigit_toNat h
  by_contra hw
  rw [Bool.not_eq_false, pyIsSpace] at hw
  simp only [Bool.or_eq_true, Bool.and_eq_true, decide_eq_true_eq] at hw
  omega

theorem pyStrip_head {s : String} {c : Char}
    (h : (pyStrip s).data.head? = some c) : pyIsSpace c = false := by
  rw [pyStrip] at h
  set w := s.data.dropWhile pyIsSpace with hw
  set z := w.reverse.dropWhile pyIsSpace with hz
  rw [show (String.mk z.reverse).data = z.reverse from rfl, List.head?_reverse] at h
  have hzne : z ≠ [] := by
    intro he
    rw [he] at h
    simp at h
  obtain ⟨pre, hp⟩ := List.dropWhile_suffix (l := w.reverse) pyIsSpace
  have hlast : w.reverse.getLast? = z.getLast? := by
    rw [← hp]
    exact List.getLast?_append_of_ne_nil _ hzne
  rw [← hlast, List.getLast?_reverse] at h
  have := List.head?_dropWhile_not pyIsSpace s.data
  rw [← hw, h] at this
  simpa using this

theorem pyStrip_last {s : String} {c : Char}
    (h : (pyStrip s).data.getLast? = some c) : pyIsSpace c = false := by
  rw [pyStrip] at h
  rw [show (String.mk (((s.data.dropWhile pyIsSpace).reverse.dropWhile pyIsSpace)).reverse).data
      = ((s.data.dropWhile pyIsSpace).reverse.dropWhile pyIsSpace).reverse from rfl,
    List.getLast?_reverse] at h
  have := List.head?_dropWhile_not pyIsSpace (s.data.dropWhile pyIsSpace).reverse
  rw [h] at this
  simpa using this

theorem pyStrip_length_le (s : String) : (pyStrip s).length ≤ s.length := by
  show (pyStrip s).data.length ≤ s.data.length
  rw [pyStrip]
  calc (((s.data.dropWhile pyIsSpace).reverse.dropWhile pyIsSpace)).reverse.length
      ≤ (s.data.dropWhile pyIsSpace).reverse.length := by
        rw [List.length_reverse]
        exact (List.dropWhile_suffix _).length_le
    _ ≤ s.data.length := by
        rw [List.length_reverse]
        exact (List.dropWhile_suffix _).length_le

/-- A base whose first character is not whitespace (what both branches of
`out[:MAX_SHEET_LEN].strip() or 'sheet'` deliver). -/
def goodHead (base : String) : Prop :=
  ∀ c, base.data.head? = some c → pyIsSpace c = false

theorem pySlice_data_take (s : String) (k : Int) : ∃ m, (pySlice s k).data = s.data.take m := by
  rw [pySlice]
  split
  · exact ⟨_, rfl⟩
  · exact ⟨_, rfl⟩

theorem candidateCore_head {base : String} {i : Nat} (hg : goodHead base) {c : Char}
    (h : (candidateCore base i).data.head? = some c) : pyIsSpace c = false := by
  rw [candidateCore, String.data_append, suffixStr_data] at h
  obtain ⟨m, hm⟩ := pySlice_data_take base (31 - ((suffixStr i).length : Int))
  rw [hm] at h
  cases htk : base.data.take m with
  | nil =>
    rw [htk] at h
    simp at h
    subst h
    decide
  | cons a t =>
    rw [htk] at h
    simp at h
    subst h
    refine hg a ?_
    cases hbd : base.data with
    | nil =>
      rw [hbd] at htk
      simp at htk
    | cons b bt =>
      rw [hbd] at htk
      cases m with
      | zero => simp at htk
      | succ m =>
        simp [List.take] at htk
        simp [htk.1]

theorem candidateCore_last {base : String} {i : Nat} {c : Char}
    (h : (candidateCore base i).data.getLast? = some c) : pyIsSpace c = false := by
  rw [candidateCore, String.data_append, suffixStr_data] at h
  have hne : ('_' :: decDigits i) ≠ [] := by simp
  rw [List.getLast?_append_of_ne_nil _ hne] at h
  have hlast : ('_' :: decDigits i).getLast? = (decDigits i).getLast? := by
    have : ('_' :: decDigits i) = ['_'] ++ decDigits i := rfl
    rw [this, List.getLast?_append_of_ne_nil _ (decDigits_ne_nil i)]
  rw [hlast] at h
  have hmem : c ∈ decDigits i := by
    obtain ⟨hne, hc⟩ := List.mem_getLast?_eq_getLast (l := decDigits i) (x := c)
      (by rw [Option.mem_def]; exact h)
    rw [hc]
    exact List.getLast_mem hne
  exact digit_not_space (decDigits_all_digit i c hmem)

namespace GcpInventory

/-- The candidate of `sanitize_sheet_name` equals the shared unstripped shape:
its first character is the base's (or the underscore) and its last is a digit,
so this `.strip()` removes nothing. -/
theorem candidateStrip_eq_core {base : String} (hg : goodHead base) (i : Nat) :
    candidate base i = candidateCore base i := by
  rw [candidate]
  exact pyStrip_eq_self (fun c hc => candidateCore_head hg hc) (fun c hc => candidateCore_last hc)

/-- Attempt `k` leaves the loop of `sanitize_sheet_name`. -/
def freshAt (base : String) (used : List String) (k : Nat) : Prop :=
  candidate base k ∉ used

theorem stripLoop_spec {base : String} {used : List String} :
    ∀ fuel i, (∃ k, i ≤ k ∧ k < i + fuel ∧ freshAt base used k) →
    ∃ k, i ≤ k ∧ freshAt base used k ∧
      (∀ m, i ≤ m → m < k → candidate base m ∈ used) ∧
      sanLoop base used i fuel = candidate base k := by
  intro fuel
  induction fuel with
  | zero =>
    rintro i ⟨k, h1, h2, -⟩
    omega
  | succ fuel ih =>
    intro i hex
    by_cases h : candidate base i ∈ used
    · have hnf : ¬ freshAt base used i := fun hf => hf h
      obtain ⟨k, hk1, hk2, hkf⟩ := hex
      have hki : i ≠ k := fun he => hnf (he ▸ hkf)
      obtain ⟨k', h1, h2, h3, h4⟩ := ih (i + 1) ⟨k, by omega, by omega, hkf⟩
      refine ⟨k', by omega, h2, ?_, ?_⟩
      · intro m hm1 hm2
        rcases Nat.eq_or_lt_of_le hm1 with rfl | hlt
        · exact h
        · exact h3 m (by omega) hm2
      · rw [sanLoop, if_pos h]
        exact h4
    · exact ⟨i, le_refl i, h,
        fun m hm1 hm2 => absurd (lt_of_le_of_lt hm1 hm2) (lt_irrefl i),
        by rw [sanLoop, if_neg h]⟩

/-- `out[:MAX_SHEET_LEN].strip() or 'sheet'`: the base name whose collisions
the loop then resolves. -/
def sanitizedBase (name : String) : String :=
  let out0 := pyStrip (strTake (removeInvalid name) 31)
  if out0 = "" then "sheet" else out0

theorem sanitize_sheet_name_def (name : String) (used : List String) :
    sanitize_sheet_name name used =
      (if sanitizedBase name ∈ used then
        sanLoop (sanitizedBase name) used 1 (sanitizeFuel used)
      else sanitizedBase name,
      (if sanitizedBase name ∈ used then
        sanLoop (sanitizedBase name) used 1 (sanitizeFuel used)
      else sanitizedBase name) :: used) := rfl

theorem sanitizedBase_ne_empty (name : String) : sanitizedBase name ≠ "" := by
  rw [sanitizedBase]
  split
  · decide
  · assumption

theorem sanitizedBase_goodHead (name : String) : goodHead (sanitizedBase name) := by
  rw [sanitizedBase]
  split
  · intro c hc
    simp at hc
    rw [← hc]
    decide
  · exact fun c hc => pyStrip_head hc

theorem sanitizedBase_length_le (name : String) : (sanitizedBase name).length ≤ 31 := by
  rw [sanitizedBase]
  split
  · decide
  · refine le_trans (pyStrip_length_le _) ?_
    show ((removeInvalid name).data.take 31).length ≤ 31
    rw [List.length_take]
    omega

/-- With an unused base `sanitize_sheet_name` returns it as is. -/
theorem sanitize_sheet_name_no_collision {name : String} {used : List String}
    (h : sanitizedBase name ∉ used) :
    sanitize_sheet_name name used = (sanitizedBase name, sanitizedBase name :: used) := by
  rw [sanitize_sheet_name_def, if_neg h]

/-- On a collision `sanitize_sheet_name` returns the candidate of the least
unused attempt index. -/
theorem sanitize_sheet_name_collision {name : String} {used : List String}
    (h : sanitizedBase name ∈ used) :
    ∃ k, 1 ≤ k ∧
      candidate (sanitizedBase name) k ∉ used ∧
      (∀ m, 1 ≤ m → m < k → candidate (sanitizedBase name) m ∈ used) ∧
      sanitize_sheet_name name used = (candidate (sanitizedBase name) k,
        candidate (sanitizedBase name) k :: used) := by
  have hex : ∃ k, 1 ≤ k ∧ k < 1 + sanitizeFuel used ∧ freshAt (sanitizedBase name) used k := by
    refine ⟨sanitizeFuel used, sanitizeFuel_pos used, by omega, ?_⟩
    rw [freshAt, candidateStrip_eq_core (sanitizedBase_goodHead name)]
    exact candidateCore_big_fresh (sanitizedBase_length_le name) used
  obtain ⟨k, hk1, hkf, hmin, hloop⟩ := stripLoop_spec (sanitizeFuel used) 1 hex
  exact ⟨k, hk1, hkf, hmin, by rw [sanitize_sheet_name_def, if_pos h, hloop]⟩

end GcpInventory

/-! ### At most `|used| + 1` attempts are ever needed (pigeonhole) -/

theorem least_collision_bound {base : String} {used : List String} {k : Nat}
    (hcard : used.length < 10 ^ 30 - 1)
    (hmin : ∀ m, 1 ≤ m → m < k → candidateCore base m ∈ used) :
    k ≤ used.length + 1 := by
  by_contra hbig
  push_neg at hbig
  have hall : ∀ m ∈ Finset.Icc 1 (used.length + 1), candidateCore base m ∈ used := by
    intro m hm
    rw [Finset.mem_Icc] at hm
    exact hmin m hm.1 (by omega)
  have hinj : Set.InjOn (candidateCore base) (Finset.Icc 1 (used.length + 1)) := by
    intro x hx y hy hxy
    rw [Finset.coe_Icc, Set.mem_Icc] at hx hy
    exact candidateCore_inj (suffixStr_length_le (by omega)) (suffixStr_length_le (by omega)) hxy
  have hsub : (Finset.Icc 1 (used.length + 1)).image (candidateCore base) ⊆ used.toFinset := by
    intro s hs
    rw [Finset.mem_image] at hs
    obtain ⟨m, hm, rfl⟩ := hs
    rw [List.mem_toFinset]
    exact hall m hm
  have h1 : ((Finset.Icc 1 (used.length + 1)).image (candidateCore base)).card =
      used.length + 1 := by
    rw [Finset.card_image_of_injOn hinj, Nat.card_Icc]
    omega
  have h2 := Finset.card_le_card hsub
  have h3 := used.toFinset_card_le
  omega

/-! ### Global properties of the two sanitizers -/

theorem candidateCore_empty_base (i : Nat) : candidateCore "" i = suffixStr i := by
  rw [candidateCore]
  have : (pySlice "" (31 - ((suffixStr i).length : Int))).data = [] := by
    obtain ⟨m, hm⟩ := pySlice_data_take "" (31 - ((suffixStr i).length : Int))
    rw [hm]
    exact List.take_nil
  have h2 : pySlice "" (31 - ((suffixStr i).length : Int)) = "" := by
    cases he : pySlice "" (31 - ((suffixStr i).length : Int))
    cases congrArg String.data he |>.symm.trans this
    rfl
  rw [h2]
  exact String.empty_append _

theorem map_id_of_fixed {l : List Char} {f : Char → Char} (h : ∀ c ∈ l, f c = c) :
    l.map f = l := by
  induction l with
  | nil => rfl
  | cons a t ih => rw [List.map_cons, h a (by simp), ih (fun c hc => h c (by simp [hc]))]

theorem candidateCore_chars {base : String} {i : Nat} {c : Char}
    (hb : ∀ c ∈ base.data, c ∉ invalidSheetChars)
    (h : c ∈ (candidateCore base i).data) : c ∉ invalidSheetChars := by
  rw [candidateCore, String.data_append] at h
  rcases List.mem_append.mp h with h1 | h2
  · obtain ⟨m, hm⟩ := pySlice_data_take base (31 - ((suffixStr i).length : Int))
    rw [hm] at h1
    exact hb c (List.take_subset m base.data h1)
  · exact suffixStr_not_invalid h2

namespace Inventory

theorem replaceInvalid_chars {name : String} {c : Char}
    (h : c ∈ (replaceInvalid name).data) : c ∉ invalidSheetChars := by
  rw [replaceInvalid] at h
  obtain ⟨x, hx, hfx⟩ := List.mem_map.mp h
  rw [replaceChar] at hfx
  by_cases hinv : x ∈ invalidSheetChars
  · rw [if_pos hinv] at hfx
    rw [← hfx]
    decide
  · rw [if_neg hinv] at hfx
    rw [← hfx]
    exact hinv

theorem base_chars {name : String} {c : Char}
    (h : c ∈ (strTake (replaceInvalid name) 31).data) : c ∉ invalidSheetChars :=
  replaceInvalid_chars (List.take_subset 31 (replaceInvalid name).data h)

/-- The name `sanitize` returns is never in the incoming used set and never
empty. -/
theorem sanitize_fresh (name : String) (used : List String) :
    (sanitize name used).1 ∉ used ∧ (sanitize name used).1 ≠ "" := by
  by_cases h : strTake (replaceInvalid name) 31 ∈ used ∨ strTake (replaceInvalid name) 31 = ""
  · obtain ⟨k, -, hk1, hk2, -, heq⟩ := sanitize_collision h
    rw [heq]
    exact ⟨hk1, hk2⟩
  · push_neg at h
    rw [sanitize_no_collision h.1 h.2]
    exact ⟨h.1, h.2⟩

theorem sanitize_snd (name : String) (used : List String) :
    (sanitize name used).2 = (sanitize name used).1 :: used := rfl

/-- The name `sanitize` returns holds no forbidden character. -/
theorem sanitize_chars (name : String) (used : List String) :
    ∀ c ∈ (sanitize name used).1.data, c ∉ invalidSheetChars := by
  intro c hc
  by_cases h : strTake (replaceInvalid name) 31 ∈ used ∨ strTake (replaceInvalid name) 31 = ""
  · obtain ⟨k, -, -, -, -, heq⟩ := sanitize_collision h
    rw [heq] at hc
    simp only at hc
    rw [candidate_eq_core] at hc
    exact candidateCore_chars (fun d hd => base_chars hd) hc
  · push_neg at h
    rw [sanitize_no_collision h.1 h.2] at hc
    exact base_chars hc

/-- With fewer than `10 ^ 30 - 1` used names the collision loop stops before
its numeric suffix outgrows 31 characters, so the result fits. -/
theorem sanitize_length (name : String) (used : List String)
    (hcard : used.length < 10 ^ 30 - 1) :
    (sanitize name used).1.length ≤ 31 := by
  by_cases h : strTake (replaceInvalid name) 31 ∈ used ∨ strTake (replaceInvalid name) 31 = ""
  · obtain ⟨k, hk0, -, -, hmin, heq⟩ := sanitize_collision h
    have hmin' : ∀ m, 1 ≤ m → m < k →
        candidateCore (strTake (replaceInvalid name) 31) m ∈ used := by
      intro m hm1 hm2
      rcases hmin m hm1 hm2 with hmem | hemp
      · rw [← candidate_eq_core]
        exact hmem
      · exact absurd (candidate_eq_core _ m ▸ hemp) (candidateCore_ne_empty _ m)
    have hk := least_collision_bound hcard hmin'
    have hk30 : k < 10 ^ 30 := by omega
    rw [heq]
    simp only
    rw [candidate_eq_core]
    exact candidateCore_length_le (suffixStr_length_le hk30)
  · push_neg at h
    rw [sanitize_no_collision h.1 h.2]
    show ((replaceInvalid name).data.take 31).length ≤ 31
    rw [List.length_take]
    omega

end Inventory

namespace GcpInventory

theorem removeInvalid_chars {name : String} {c : Char}
    (h : c ∈ (removeInvalid name).data) : c ∉ invalidSheetChars := by
  rw [removeInvalid] at h
  have := List.of_mem_filter h
  rw [← gcp_invalid_iff]
  simpa using this

theorem pyStrip_subset {s : String} {c : Char} (h : c ∈ (pyStrip s).data) : c ∈ s.data := by
  rw [pyStrip] at h
  have h1 := (List.mem_reverse).mp h
  have h2 := (List.dropWhile_suffix pyIsSpace).subset h1
  have h3 := (List.mem_reverse).mp h2
  exact (List.dropWhile_suffix pyIsSpace).subset h3

theorem sanitizedBase_chars {name : String} {c : Char}
    (h : c ∈ (sanitizedBase name).data) : c ∉ invalidSheetChars := by
  rw [sanitizedBase] at h
  by_cases he : pyStrip (strTake (removeInvalid name) 31) = ""
  · rw [if_pos he] at h
    fin_cases h <;> decide
  · rw [if_neg he] at h
    have := pyStrip_subset h
    exact removeInvalid_chars (List.take_subset 31 (removeInvalid name).data this)

/-- The name `sanitize_sheet_name` returns is never in the incoming used set
and never empty. -/
theorem sanitize_sheet_name_fresh (name : String) (used : List String) :
    (sanitize_sheet_name name used).1 ∉ used ∧ (sanitize_sheet_name name used).1 ≠ "" := by
  by_cases h : sanitizedBase name ∈ used
  · obtain ⟨k, -, hk1, -, heq⟩ := sanitize_sheet_name_collision h
    rw [heq]
    refine ⟨hk1, ?_⟩
    simp only
    rw [candidateStrip_eq_core (sanitizedBase_goodHead name)]
    exact candidateCore_ne_empty _ k
  · rw [sanitize_sheet_name_no_collision h]
    exact ⟨h, sanitizedBase_ne_empty name⟩

theorem sanitize_sheet_name_snd (name : String) (used : List String) :
    (sanitize_sheet_name name used).2 = (sanitize_sheet_name name used).1 :: used := rfl

/-- The name `sanitize_sheet_name` returns holds no forbidden character. -/
theorem sanitize_sheet_name_chars (name : String) (used : List String) :
    ∀ c ∈ (sanitize_sheet_name name used).1.data, c ∉ invalidSheetChars := by
  intro c hc
  by_cases h : sanitizedBase name ∈ used
  · obtain ⟨k, -, -, -, heq⟩ := sanitize_sheet_name_collision h
    rw [heq] at hc
    simp only at hc
    rw [candidateStrip_eq_core (sanitizedBase_goodHead name)] at hc
    exact candidateCore_chars (fun d hd => sanitizedBase_chars hd) hc
  · rw [sanitize_sheet_name_no_collision h] at hc
    exact sanitizedBase_chars hc

/-- With fewer than `10 ^ 30 - 1` used names the result of
`sanitize_sheet_name` fits in 31 characters. -/
theorem sanitize_sheet_name_length (name : String) (used : List String)
    (hcard : used.length < 10 ^ 30 - 1) :
    (sanitize_sheet_name name used).1.length ≤ 31 := by
  by_cases h : sanitizedBase name ∈ used
  · obtain ⟨k, hk0, -, hmin, heq⟩ := sanitize_sheet_name_collision h
    have hmin' : ∀ m, 1 ≤ m → m < k → candidateCore (sanitizedBase name) m ∈ used := by
      intro m hm1 hm2
      rw [← candidateStrip_eq_core (sanitizedBase_goodHead name)]
      exact hmin m hm1 hm2
    have hk := least_collision_bound hcard hmin'
    have hk30 : k < 10 ^ 30 := by omega
    rw [heq]
    simp only
    rw [candidateStrip_eq_core (sanitizedBase_goodHead name)]
    exact candidateCore_length_le (suffixStr_length_le hk30)
  · rw [sanitize_sheet_name_no_collision h]
    exact sanitizedBase_length_le name

end GcpInventory

/-! ### More candidate shapes (used by the oversized-suffix inputs) -/

theorem suffixStr_ne_empty (i : Nat) : suffixStr i ≠ "" := by
  intro h
  have := congrArg String.data h
  rw [suffixStr_data] at this
  simp at this

theorem candidateCore_eq_suffixStr {base : String} {i : Nat}
    (h : base.length + 31 ≤ (suffixStr i).length) :
    candidateCore base i = suffixStr i := by
  have hb : base.data.length = base.length := rfl
  have hempty : (pySlice base (31 - ((suffixStr i).length : Int))).data = [] := by
    rw [pySlice]
    split
    · rename_i hpos
      have : ((31 : Int) - ((suffixStr i).length : Int)).toNat = 0 ∨
          base.data.length = 0 := by omega
      rcases this with h0 | h0
      · rw [h0, List.take_zero]
      · rw [List.eq_nil_of_length_eq_zero h0, List.take_nil]
    · have h0 : ((base.data.length : Int) + (31 - ((suffixStr i).length : Int))).toNat = 0 := by
        omega
      rw [h0, List.take_zero]
  rw [candidateCore]
  have h2 : pySlice base (31 - ((suffixStr i).length : Int)) = "" := by
    cases he : pySlice base (31 - ((suffixStr i).length : Int))
    cases congrArg String.data he |>.symm.trans hempty
    rfl
  rw [h2]
  exact String.empty_append _

/-! ## Claim C1 — sanitizer output validity

The claim holds except for its length bound, which can fail when the used-name
set already holds every candidate with a suffix of at most 30 digits: the loop
then appends a suffix of 31 digits and returns a 32-character name. -/

/-- Claim C1, counterexample: with the `10 ^ 30 - 1` single-suffix candidates of
the empty base all used, `sanitize` (src/inventory.py:165-178) returns
`"_1" ++ 30 zeros`, a name of length 32 — the claimed 31-character bound fails
for this used-name set. -/
theorem claim_C1_counterexample :
    ¬ ((Inventory.sanitize "" ((List.range' 1 (10 ^ 30 - 1)).map
        (fun j => Inventory.candidate "" j))).1.length ≤ 31) := by
  set used := (List.range' 1 (10 ^ 30 - 1)).map (fun j => Inventory.candidate "" j) with hu
  have hs0 : strTake (Inventory.replaceInvalid "") 31 = "" := rfl
  have hcol : strTake (Inventory.replaceInvalid "") 31 ∈ used ∨
      strTake (Inventory.replaceInvalid "") 31 = "" := Or.inr hs0
  obtain ⟨k, hk1, hfr, hne, hmin, heq⟩ := Inventory.sanitize_collision hcol
  rw [hs0] at hfr hne hmin heq
  have hcand : ∀ j, Inventory.candidate "" j = suffixStr j := by
    intro j
    rw [Inventory.candidate_eq_core, candidateCore_empty_base]
  have hlen32 : (suffixStr (10 ^ 30)).length = 32 := by
    rw [suffixStr_length, decDigits_pow_length]
  have hmemlen : ∀ s ∈ used, s.length ≤ 31 := by
    intro s hs
    rw [hu] at hs
    obtain ⟨j, hj, rfl⟩ := List.mem_map.mp hs
    have hjlt : j < 10 ^ 30 := by
      rw [List.mem_range'] at hj
      obtain ⟨i, hi, rfl⟩ := hj
      omega
    rw [Inventory.candidate_eq_core]
    exact candidateCore_length_le (suffixStr_length_le hjlt)
  have hfresh30 : Inventory.candidate "" (10 ^ 30) ∉ used := by
    intro hmem
    have := hmemlen _ hmem
    rw [hcand, hlen32] at this
    omega
  have hcoll : ∀ m, 1 ≤ m → m < 10 ^ 30 → Inventory.candidate "" m ∈ used := by
    intro m h1 h2
    rw [hu]
    refine List.mem_map.mpr ⟨m, ?_, rfl⟩
    rw [List.mem_range']
    exact ⟨m - 1, by omega, by omega⟩
  have hk30 : k = 10 ^ 30 := by
    rcases lt_trichotomy k (10 ^ 30) with hlt | he | hgt
    · exact absurd (hcoll k hk1 hlt) hfr
    · exact he
    · rcases hmin (10 ^ 30) (by norm_num) hgt with hmem | hemp
      · exact absurd hmem hfresh30
      · rw [hcand] at hemp
        exact absurd hemp (suffixStr_ne_empty _)
  rw [heq]
  simp only
  rw [hk30, hcand, hlen32]
  omega

/-- Claim C1, amended: both sanitizers always return a name free of the
forbidden characters and not in the used set, and two sequential calls (with
the set mutated in between) return distinct names; the 31-character bound
holds provided the used set carries fewer than `10 ^ 30 - 1` names, which
keeps the numeric suffix under 31 digits. -/
theorem claim_C1_amended (name name' : String) (used : List String)
    (hcard : used.length < 10 ^ 30 - 1) :
    ((Inventory.sanitize name used).1 ∉ used ∧
      (∀ c ∈ (Inventory.sanitize name used).1.data, c ∉ invalidSheetChars) ∧
      (Inventory.sanitize name used).1.length ≤ 31 ∧
      (Inventory.sanitize name' (Inventory.sanitize name used).2).1 ≠
        (Inventory.sanitize name used).1) ∧
    ((GcpInventory.sanitize_sheet_name name used).1 ∉ used ∧
      (∀ c ∈ (GcpInventory.sanitize_sheet_name name used).1.data, c ∉ invalidSheetChars) ∧
      (GcpInventory.sanitize_sheet_name name used).1.length ≤ 31 ∧
      (GcpInventory.sanitize_sheet_name name' (GcpInventory.sanitize_sheet_name name used).2).1 ≠
        (GcpInventory.sanitize_sheet_name name used).1) := by
  refine ⟨⟨(Inventory.sanitize_fresh name used).1, Inventory.sanitize_chars name used,
    Inventory.sanitize_length name used hcard, ?_⟩,
    ⟨(GcpInventory.sanitize_sheet_name_fresh name used).1,
    GcpInventory.sanitize_sheet_name_chars name used,
    GcpInventory.sanitize_sheet_name_length name used hcard, ?_⟩⟩
  · intro hcontra
    have hfresh := (Inventory.sanitize_fresh name' (Inventory.sanitize name used).2).1
    rw [hcontra, Inventory.sanitize_snd name used] at hfresh
    exact hfresh (List.mem_cons_self _ _)
  · intro hcontra
    have hfresh :=
      (GcpInventory.sanitize_sheet_name_fresh name' (GcpInventory.sanitize_sheet_name name used).2).1
    rw [hcontra, GcpInventory.sanitize_sheet_name_snd name used] at hfresh
    exact hfresh (List.mem_cons_self _ _)

/-- Claim C1, witness: the amended theorem at label `"Sheet1"` over the empty
used set. -/
theorem claim_C1_witness :
    ([] : List String).length < 10 ^ 30 - 1 ∧
    (((Inventory.sanitize "Sheet1" []).1 ∉ ([] : List String) ∧
      (∀ c ∈ (Inventory.sanitize "Sheet1" []).1.data, c ∉ invalidSheetChars) ∧
      (Inventory.sanitize "Sheet1" []).1.length ≤ 31 ∧
      (Inventory.sanitize "Sheet1" (Inventory.sanitize "Sheet1" []).2).1 ≠
        (Inventory.sanitize "Sheet1" []).1) ∧
    ((GcpInventory.sanitize_sheet_name "Sheet1" []).1 ∉ ([] : List String) ∧
      (∀ c ∈ (GcpInventory.sanitize_sheet_name "Sheet1" []).1.data, c ∉ invalidSheetChars) ∧
      (GcpInventory.sanitize_sheet_name "Sheet1" []).1.length ≤ 31 ∧
      (GcpInventory.sanitize_sheet_name "Sheet1"
          (GcpInventory.sanitize_sheet_name "Sheet1" []).2).1 ≠
        (GcpInventory.sanitize_sheet_name "Sheet1" []).1)) :=
  ⟨by norm_num, claim_C1_amended "Sheet1" "Sheet1" [] (by norm_num)⟩

/-! ## Claim C5 — the collision suffix takes the least free index -/

/-- Claim C5: when the sanitized label is already used, both sanitizers return
the candidate `base`-with-`_k` for the smallest `k ≥ 1` whose candidate is not
yet used (every smaller index collides). -/
theorem claim_C5_least_suffix (name : String) (used : List String)
    (h1 : strTake (Inventory.replaceInvalid name) 31 ∈ used)
    (h2 : GcpInventory.sanitizedBase name ∈ used) :
    (∃ k, 1 ≤ k ∧
      Inventory.candidate (strTake (Inventory.replaceInvalid name) 31) k ∉ used ∧
      (∀ m, 1 ≤ m → m < k →
        Inventory.candidate (strTake (Inventory.replaceInvalid name) 31) m ∈ used) ∧
      (Inventory.sanitize name used).1 =
        Inventory.candidate (strTake (Inventory.replaceInvalid name) 31) k) ∧
    (∃ k, 1 ≤ k ∧
      GcpInventory.candidate (GcpInventory.sanitizedBase name) k ∉ used ∧
      (∀ m, 1 ≤ m → m < k →
        GcpInventory.candidate (GcpInventory.sanitizedBase name) m ∈ used) ∧
      (GcpInventory.sanitize_sheet_name name used).1 =
        GcpInventory.candidate (GcpInventory.sanitizedBase name) k) := by
  constructor
  · obtain ⟨k, hk1, hf1, hf2, hmin, heq⟩ := Inventory.sanitize_collision (Or.inl h1)
    refine ⟨k, hk1, hf1, ?_, by rw [heq]⟩
    intro m hm1 hm2
    rcases hmin m hm1 hm2 with hmem | hemp
    · exact hmem
    · exact absurd (Inventory.candidate_eq_core _ m ▸ hemp) (candidateCore_ne_empty _ m)
  · obtain ⟨k, hk1, hf, hmin, heq⟩ := GcpInventory.sanitize_sheet_name_collision h2
    exact ⟨k, hk1, hf, hmin, by rw [heq]⟩

/-- Claim C5, witness: at label `"data"` with `{"data"}` used both sanitizers
suffix with the least free index, and the concrete examples of the claim
(`"data_1"`, then `"data_2"`) hold for both. -/
theorem claim_C5_witness :
    (∃ k, 1 ≤ k ∧ (Inventory.sanitize "data" ["data"]).1 =
      Inventory.candidate (strTake (Inventory.replaceInvalid "data") 31) k) ∧
    (∃ k, 1 ≤ k ∧ (GcpInventory.sanitize_sheet_name "data" ["data"]).1 =
      GcpInventory.candidate (GcpInventory.sanitizedBase "data") k) ∧
    (Inventory.sanitize "data" ["data"]).1 = "data_1" ∧
    (Inventory.sanitize "data" ["data", "data_1"]).1 = "data_2" ∧
    (GcpInventory.sanitize_sheet_name "data" ["data"]).1 = "data_1" ∧
    (GcpInventory.sanitize_sheet_name "data" ["data", "data_1"]).1 = "data_2" :=
  ⟨((claim_C5_least_suffix "data" ["data"] (by decide) (by decide)).1).imp
      (fun k hk => ⟨hk.1, hk.2.2.2⟩),
   ((claim_C5_least_suffix "data" ["data"] (by decide) (by decide)).2).imp
      (fun k hk => ⟨hk.1, hk.2.2.2⟩),
   by decide, by decide, by decide, by decide⟩

/-! ## Claim C6 — truncation comes before collision-checking

Distinct labels agreeing only after truncation are still disambiguated, and a
suffixed result carries its suffix whole; but the claimed 31-character bound
again fails once the suffix reaches 31 digits, so that part carries the same
cardinality bound as claim C1. -/

/-- Claim C6, counterexample: with `"x"` and its `10 ^ 30 - 1` small-suffix
candidates all used, `sanitize_sheet_name` appends a 31-digit suffix — the
append exceeds 31 characters and the returned name keeps the whole suffix but
has length 32, not at most 31. -/
theorem claim_C6_counterexample :
    ¬ ((GcpInventory.sanitize_sheet_name "x" ("x" :: (List.range' 1 (10 ^ 30 - 1)).map
        (fun j => GcpInventory.candidate "x" j))).1.length ≤ 31) := by
  set used := "x" :: (List.range' 1 (10 ^ 30 - 1)).map (fun j => GcpInventory.candidate "x" j)
    with hu
  have hbase : GcpInventory.sanitizedBase "x" = "x" := by decide
  have hcol : GcpInventory.sanitizedBase "x" ∈ used := by
    rw [hbase, hu]
    exact List.mem_cons_self _ _
  obtain ⟨k, hk1, hfr, hmin, heq⟩ := GcpInventory.sanitize_sheet_name_collision hcol
  rw [hbase] at hfr hmin heq
  have hlen32 : (suffixStr (10 ^ 30)).length = 32 := by
    rw [suffixStr_length, decDigits_pow_length]
  have hg : goodHead "x" := by
    have := GcpInventory.sanitizedBase_goodHead "x"
    rwa [hbase] at this
  have hcand30 : GcpInventory.candidate "x" (10 ^ 30) = suffixStr (10 ^ 30) := by
    rw [GcpInventory.candidateStrip_eq_core hg]
    refine candidateCore_eq_suffixStr ?_
    rw [hlen32]
    decide
  have hmemlen : ∀ s ∈ used, s.length ≤ 31 := by
    intro s hs
    rw [hu] at hs
    rcases List.mem_cons.mp hs with rfl | hs'
    · decide
    · obtain ⟨j, hj, rfl⟩ := List.mem_map.mp hs'
      have hjlt : j < 10 ^ 30 := by
        rw [List.mem_range'] at hj
        obtain ⟨i, hi, rfl⟩ := hj
        omega
      calc (GcpInventory.candidate "x" j).length
          ≤ (candidateCore "x" j).length := pyStrip_length_le _
        _ ≤ 31 := candidateCore_length_le (suffixStr_length_le hjlt)
  have hfresh30 : GcpInventory.candidate "x" (10 ^ 30) ∉ used := by
    intro hmem
    have := hmemlen _ hmem
    rw [hcand30, hlen32] at this
    omega
  have hcoll : ∀ m, 1 ≤ m → m < 10 ^ 30 → GcpInventory.candidate "x" m ∈ used := by
    intro m hm1 hm2
    rw [hu]
    refine List.mem_cons.mpr (Or.inr (List.mem_map.mpr ⟨m, ?_, rfl⟩))
    rw [List.mem_range']
    exact ⟨m - 1, by omega, by omega⟩
  have hk30 : k = 10 ^ 30 := by
    rcases lt_trichotomy k (10 ^ 30) with hlt | he | hgt
    · exact absurd (hcoll k hk1 hlt) hfr
    · exact he
    · exact absurd (hmin (10 ^ 30) (by norm_num) hgt) hfresh30
  rw [heq]
  simp only
  rw [hk30, hcand30, hlen32]
  omega

/-- Claim C6, amended: in both implementations, sequential calls on distinct
labels that agree after truncation still return distinct names; and (with the
used set holding fewer than `10 ^ 30 - 1` names, which keeps the suffix under
31 digits) a collision result is the truncated base followed by the whole
suffix, within 31 characters. -/
theorem claim_C6_amended (n1 n2 : String) (used : List String)
    (hcard : used.length < 10 ^ 30 - 1)
    (hne : n1 ≠ n2)
    (htr : strTake (Inventory.replaceInvalid n1) 31 = strTake (Inventory.replaceInvalid n2) 31)
    (htr2 : GcpInventory.sanitizedBase n1 = GcpInventory.sanitizedBase n2) :
    ((Inventory.sanitize n2 (Inventory.sanitize n1 used).2).1 ≠ (Inventory.sanitize n1 used).1 ∧
    (strTake (Inventory.replaceInvalid n1) 31 ∈ used ∨
        strTake (Inventory.replaceInvalid n1) 31 = "" →
      ∃ k, 1 ≤ k ∧
        (Inventory.sanitize n1 used).1 =
          pySlice (strTake (Inventory.replaceInvalid n1) 31)
            (31 - ((suffixStr k).length : Int)) ++ suffixStr k ∧
        (suffixStr k).data <:+ (Inventory.sanitize n1 used).1.data ∧
        (Inventory.sanitize n1 used).1.length ≤ 31)) ∧
    ((GcpInventory.sanitize_sheet_name n2 (GcpInventory.sanitize_sheet_name n1 used).2).1 ≠
      (GcpInventory.sanitize_sheet_name n1 used).1 ∧
    (GcpInventory.sanitizedBase n1 ∈ used →
      ∃ k, 1 ≤ k ∧
        (GcpInventory.sanitize_sheet_name n1 used).1 =
          pySlice (GcpInventory.sanitizedBase n1)
            (31 - ((suffixStr k).length : Int)) ++ suffixStr k ∧
        (suffixStr k).data <:+ (GcpInventory.sanitize_sheet_name n1 used).1.data ∧
        (GcpInventory.sanitize_sheet_name n1 used).1.length ≤ 31)) := by
  refine ⟨⟨?_, ?_⟩, ?_, ?_⟩
  · intro hcontra
    have hfresh := (Inventory.sanitize_fresh n2 (Inventory.sanitize n1 used).2).1
    rw [hcontra, Inventory.sanitize_snd n1 used] at hfresh
    exact hfresh (List.mem_cons_self _ _)
  · intro hcol
    obtain ⟨k, hk1, -, -, hmin, heq⟩ := Inventory.sanitize_collision hcol
    have hmin' : ∀ m, 1 ≤ m → m < k →
        candidateCore (strTake (Inventory.replaceInvalid n1) 31) m ∈ used := by
      intro m hm1 hm2
      rcases hmin m hm1 hm2 with hmem | hemp
      · rw [← Inventory.candidate_eq_core]
        exact hmem
      · exact absurd (Inventory.candidate_eq_core _ m ▸ hemp) (candidateCore_ne_empty _ m)
    have hk := least_collision_bound hcard hmin'
    have hk30 : k < 10 ^ 30 := by omega
    refine ⟨k, hk1, ?_, ?_, ?_⟩
    · rw [heq]
      simp only
      rw [Inventory.candidate_eq_core, candidateCore]
    · rw [heq]
      simp only
      rw [Inventory.candidate_eq_core, candidateCore, String.data_append]
      exact ⟨_, rfl⟩
    · rw [heq]
      simp only
      rw [Inventory.candidate_eq_core]
      exact candidateCore_length_le (suffixStr_length_le hk30)
  · intro hcontra
    have hfresh :=
      (GcpInventory.sanitize_sheet_name_fresh n2 (GcpInventory.sanitize_sheet_name n1 used).2).1
    rw [hcontra, GcpInventory.sanitize_sheet_name_snd n1 used] at hfresh
    exact hfresh (List.mem_cons_self _ _)
  · intro hcol
    obtain ⟨k, hk1, -, hmin, heq⟩ := GcpInventory.sanitize_sheet_name_collision hcol
    have hg := GcpInventory.sanitizedBase_goodHead n1
    have hmin' : ∀ m, 1 ≤ m → m < k →
        candidateCore (GcpInventory.sanitizedBase n1) m ∈ used := by
      intro m hm1 hm2
      rw [← GcpInventory.candidateStrip_eq_core hg]
      exact hmin m hm1 hm2
    have hk := least_collision_bound hcard hmin'
    have hk30 : k < 10 ^ 30 := by omega
    refine ⟨k, hk1, ?_, ?_, ?_⟩
    · rw [heq]
      simp only
      rw [GcpInventory.candidateStrip_eq_core hg, candidateCore]
    · rw [heq]
      simp only
      rw [GcpInventory.candidateStrip_eq_core hg, candidateCore, String.data_append]
      exact ⟨_, rfl⟩
    · rw [heq]
      simp only
      rw [GcpInventory.candidateStrip_eq_core hg]
      exact candidateCore_length_le (suffixStr_length_le hk30)

/-- Claim C6, witness: two 33-character labels that differ only past the
31-character cut still receive distinct sheet names, from both
implementations. -/
theorem claim_C6_witness :
    ("aaaaaaaaaaaaaaaaaaaaaaaaaaaaaaaXX" : String) ≠ "aaaaaaaaaaaaaaaaaaaaaaaaaaaaaaaYY" ∧
    strTake (Inventory.replaceInvalid "aaaaaaaaaaaaaaaaaaaaaaaaaaaaaaaXX") 31 =
      strTake (Inventory.replaceInvalid "aaaaaaaaaaaaaaaaaaaaaaaaaaaaaaaYY") 31 ∧
    GcpInventory.sanitizedBase "aaaaaaaaaaaaaaaaaaaaaaaaaaaaaaaXX" =
      GcpInventory.sanitizedBase "aaaaaaaaaaaaaaaaaaaaaaaaaaaaaaaYY" ∧
    (Inventory.sanitize "aaaaaaaaaaaaaaaaaaaaaaaaaaaaaaaYY"
        (Inventory.sanitize "aaaaaaaaaaaaaaaaaaaaaaaaaaaaaaaXX" []).2).1 ≠
      (Inventory.sanitize "aaaaaaaaaaaaaaaaaaaaaaaaaaaaaaaXX" []).1 ∧
    (GcpInventory.sanitize_sheet_name "aaaaaaaaaaaaaaaaaaaaaaaaaaaaaaaYY"
        (GcpInventory.sanitize_sheet_name "aaaaaaaaaaaaaaaaaaaaaaaaaaaaaaaXX" []).2).1 ≠
      (GcpInventory.sanitize_sheet_name "aaaaaaaaaaaaaaaaaaaaaaaaaaaaaaaXX" []).1 :=
  ⟨by decide, by decide, by decide,
    ((claim_C6_amended "aaaaaaaaaaaaaaaaaaaaaaaaaaaaaaaXX" "aaaaaaaaaaaaaaaaaaaaaaaaaaaaaaaYY" []
      (by norm_num) (by decide) (by decide) (by decide)).1).1,
    ((claim_C6_amended "aaaaaaaaaaaaaaaaaaaaaaaaaaaaaaaXX" "aaaaaaaaaaaaaaaaaaaaaaaaaaaaaaaYY" []
      (by norm_num) (by decide) (by decide) (by decide)).2).1⟩

/-! ## Claim C7 — the empty-after-sanitization label

Only the gcp_inventory sanitizer substitutes the `'sheet'` placeholder; the
top-level script replaces forbidden characters instead of removing them, so
only the empty label sanitizes to empty there, and it receives a bare numeric
suffix name, not a placeholder. -/

/-- Claim C7, counterexample: the top-level script's `sanitize` gives the
empty-sanitizing label the name `"_1"`, not the default placeholder
`"sheet"`. -/
theorem claim_C7_counterexample :
    (Inventory.sanitize "" []).1 = "_1" ∧ ("_1" : String) ≠ "sheet" :=
  ⟨by decide, by decide⟩

/-- Claim C7, amended: a label that sanitizes to the empty string yields the
placeholder `"sheet"` in `sanitize_sheet_name` (when `"sheet"` is unused) and a
bare suffix name `"_k"` in the script's `sanitize`; in both, repeating the
empty-sanitizing input never returns the same name twice. -/
theorem claim_C7_amended (name : String) (used : List String)
    (hempty : pyStrip (strTake (GcpInventory.removeInvalid name) 31) = "")
    (hsheet : "sheet" ∉ used) :
    (GcpInventory.sanitize_sheet_name name used).1 = "sheet" ∧
    (GcpInventory.sanitize_sheet_name name (GcpInventory.sanitize_sheet_name name used).2).1 ≠
      (GcpInventory.sanitize_sheet_name name used).1 ∧
    (Inventory.sanitize "" used).1 ∉ used ∧
    (∃ k, 1 ≤ k ∧ (Inventory.sanitize "" used).1 = suffixStr k) ∧
    (Inventory.sanitize "" (Inventory.sanitize "" used).2).1 ≠ (Inventory.sanitize "" used).1 := by
  have hbase : GcpInventory.sanitizedBase name = "sheet" := by
    have hdef : GcpInventory.sanitizedBase name =
        if pyStrip (strTake (GcpInventory.removeInvalid name) 31) = "" then "sheet"
        else pyStrip (strTake (GcpInventory.removeInvalid name) 31) := rfl
    rw [hdef, if_pos hempty]
  refine ⟨?_, ?_, (Inventory.sanitize_fresh "" used).1, ?_, ?_⟩
  · have hnc := @GcpInventory.sanitize_sheet_name_no_collision name used
      (by rw [hbase]; exact hsheet)
    rw [hnc, hbase]
  · intro hcontra
    have hfresh :=
      (GcpInventory.sanitize_sheet_name_fresh name (GcpInventory.sanitize_sheet_name name used).2).1
    rw [hcontra, GcpInventory.sanitize_sheet_name_snd name used] at hfresh
    exact hfresh (List.mem_cons_self _ _)
  · have hs0 : strTake (Inventory.replaceInvalid "") 31 = "" := rfl
    obtain ⟨k, hk1, -, -, -, heq⟩ := Inventory.sanitize_collision (Or.inr hs0)
    refine ⟨k, hk1, ?_⟩
    rw [heq]
    simp only
    rw [hs0, Inventory.candidate_eq_core, candidateCore_empty_base]
  · intro hcontra
    have hfresh := (Inventory.sanitize_fresh "" (Inventory.sanitize "" used).2).1
    rw [hcontra, Inventory.sanitize_snd "" used] at hfresh
    exact hfresh (List.mem_cons_self _ _)

/-- Claim C7, witness: the all-forbidden label `":::"` over the empty used set
yields `"sheet"` from the gcp_inventory sanitizer, repeated calls staying
distinct. -/
theorem claim_C7_witness :
    pyStrip (strTake (GcpInventory.removeInvalid ":::") 31) = "" ∧
    ("sheet" : String) ∉ ([] : List String) ∧
    (GcpInventory.sanitize_sheet_name ":::" []).1 = "sheet" ∧
    (GcpInventory.sanitize_sheet_name ":::" (GcpInventory.sanitize_sheet_name ":::" []).2).1 ≠
      (GcpInventory.sanitize_sheet_name ":::" []).1 :=
  ⟨by decide, by decide,
    (claim_C7_amended ":::" [] (by decide) (by decide)).1,
    (claim_C7_amended ":::" [] (by decide) (by decide)).2.1⟩

/-! ## Claim C10 — already-valid fresh labels pass through unchanged -/

/-- Claim C10: a label with no forbidden character, at most 31 characters,
non-empty, with no leading or trailing whitespace and not yet used is returned
unchanged by both sanitizers, and recorded in the used set. -/
theorem claim_C10_identity (name : String) (used : List String)
    (hchars : ∀ c ∈ name.data, c ∉ invalidSheetChars)
    (hlen : name.length ≤ 31)
    (hne : name ≠ "")
    (hhead : (name.data.head?.all fun c => !pyIsSpace c) = true)
    (hlast : (name.data.getLast?.all fun c => !pyIsSpace c) = true)
    (hmem : name ∉ used) :
    Inventory.sanitize name used = (name, name :: used) ∧
    GcpInventory.sanitize_sheet_name name used = (name, name :: used) := by
  have hdlen : name.data.length ≤ 31 := hlen
  have htake : strTake name 31 = name := by
    show String.mk (name.data.take 31) = name
    rw [List.take_of_length_le hdlen]
  have hrepl : Inventory.replaceInvalid name = name := by
    show String.mk (name.data.map Inventory.replaceChar) = name
    rw [map_id_of_fixed]
    intro c hc
    rw [Inventory.replaceChar, if_neg (hchars c hc)]
  have hhead' : ∀ c, name.data.head? = some c → pyIsSpace c = false := by
    intro c hc
    have h' := hhead
    rw [hc] at h'
    simpa using h'
  have hlast' : ∀ c, name.data.getLast? = some c → pyIsSpace c = false := by
    intro c hc
    have h' := hlast
    rw [hc] at h'
    simpa using h'
  have hstrip : pyStrip name = name := pyStrip_eq_self hhead' hlast'
  constructor
  · have := @Inventory.sanitize_no_collision name used
      (by rw [hrepl, htake]; exact hmem) (by rw [hrepl, htake]; exact hne)
    rw [hrepl, htake] at this
    exact this
  · have hfil : GcpInventory.removeInvalid name = name := by
      show String.mk (name.data.filter _) = name
      have : name.data.filter (fun c => !decide (c ∈ GcpInventory.INVALID_SHEET_CHARS)) =
          name.data := by
        rw [List.filter_eq_self]
        intro c hc
        have hninv : c ∉ GcpInventory.INVALID_SHEET_CHARS :=
          fun h => hchars c hc (gcp_invalid_iff.mp h)
        simpa using hninv
      rw [this]
    have hsb : GcpInventory.sanitizedBase name = name := by
      have hdef : GcpInventory.sanitizedBase name =
          if pyStrip (strTake (GcpInventory.removeInvalid name) 31) = "" then "sheet"
          else pyStrip (strTake (GcpInventory.removeInvalid name) 31) := rfl
      rw [hdef, hfil, htake, hstrip, if_neg hne]
    have := @GcpInventory.sanitize_sheet_name_no_collision name used
      (by rw [hsb]; exact hmem)
    rw [hsb] at this
    exact this

/-- Claim C10, witness: the already-valid fresh label `"assets"` comes back
unchanged from both sanitizers. -/
theorem claim_C10_witness :
    Inventory.sanitize "assets" [] = ("assets", ["assets"]) ∧
    GcpInventory.sanitize_sheet_name "assets" [] = ("assets", ["assets"]) :=
  claim_C10_identity "assets" [] (by decide) (by decide) (by decide) (by decide) (by decide)
    (by decide)

/-! ## JSON values

The loosely-typed records both collectors produce (the spec's tagged value
union): text, integer number, boolean, null, sequence, or string-keyed
mapping; a record is a mapping, kept as an ordered association list exactly as
Python dict iteration presents it. Numbers are modelled as integers. -/

inductive JVal where
  | jnull
  | jbool (b : Bool)
  | jnum (n : Int)
  | jstr (s : String)
  | jarr (elems : List JVal)
  | jobj (fields : List (String × JVal))

/-- A Record: one resource's mapping from field name to value. -/
abbrev Record := List (String × JVal)

/-! ### `json.dumps` (with `ensure_ascii=False` and default separators) -/

def hexDigitChar (d : Nat) : Char := if d < 10 then digitChar d else Char.ofNat (87 + d)

/-- How `json.dumps` escapes one character of a string. -/
def escChar (c : Char) : List Char :=
  if c = '"' then ['\\', '"']
  else if c = '\\' then ['\\', '\\']
  else if c = '\n' then ['\\', 'n']
  else if c = '\r' then ['\\', 'r']
  else if c = '\t' then ['\\', 't']
  else if c = Char.ofNat 8 then ['\\', 'b']
  else if c = Char.ofNat 12 then ['\\', 'f']
  else if c.toNat < 32 then
    ['\\', 'u', '0', '0', hexDigitChar (c.toNat / 16), hexDigitChar (c.toNat % 16)]
  else [c]

def escString (s : String) : List Char := s.data.flatMap escChar

/-- Python `str` of an integer. -/
def intChars (n : Int) : List Char :=
  if n < 0 then '-' :: decDigits (-n).toNat else decDigits n.toNat

mutual
/-- The text `json.dumps` emits for a value (separators `", "` and `": "`). -/
def dumpVal : JVal → List Char
  | .jnull => ['n', 'u', 'l', 'l']
  | .jbool true => ['t', 'r', 'u', 'e']
  | .jbool false => ['f', 'a', 'l', 's', 'e']
  | .jnum n => intChars n
  | .jstr s => '"' :: (escString s ++ ['"'])
  | .jarr [] => ['[', ']']
  | .jarr (v :: tl) => '[' :: ((dumpVal v ++ dumpElems tl) ++ [']'])
  | .jobj [] => ['{', '}']
  | .jobj ((k, v) :: tl) => '{' :: ((dumpField k v ++ dumpFields tl) ++ ['}'])
def dumpField (k : String) (v : JVal) : List Char :=
  '"' :: (escString k ++ ('"' :: ':' :: ' ' :: dumpVal v))
def dumpElems : List JVal → List Char
  | [] => []
  | v :: tl => ',' :: ' ' :: (dumpVal v ++ dumpElems tl)
def dumpFields : List (String × JVal) → List Char
  | [] => []
  | (k, v) :: tl => ',' :: ' ' :: (dumpField k v ++ dumpFields tl)
end

def dumps (v : JVal) : String := ⟨dumpVal v⟩

mutual
/-- Fuel adequate for parsing a value back (one unit per parser call). -/
def nodes : JVal → Nat
  | .jarr es => 1 + nodesE es
  | .jobj fs => 1 + nodesF fs
  | _ => 1
def nodesE : List JVal → Nat
  | [] => 0
  | v :: tl => 1 + nodes v + nodesE tl
def nodesF : List (String × JVal) → Nat
  | [] => 0
  | (_, v) :: tl => 1 + nodes v + nodesF tl
end

/-! ### `json.loads` (a recursive-descent reader of the same grammar) -/

def jsonWs (c : Char) : Bool := c = ' ' || c = '\t' || c = '\n' || c = '\r'

def skipWs : List Char → List Char := List.dropWhile jsonWs

def hexVal (c : Char) : Option Nat :=
  if c.isDigit then some (c.toNat - 48)
  else if 'a' ≤ c ∧ c ≤ 'f' then some (c.toNat - 87)
  else if 'A' ≤ c ∧ c ≤ 'F' then some (c.toNat - 55)
  else none

/-- Read a string body up to its closing quote, decoding escapes; the fuel
decreases once per decoded character, and the callers pass more fuel than the
input length, which always suffices. -/
def parseStrBody : Nat → List Char → Option (List Char × List Char)
  | 0, _ => none
  | _+1, [] => none
  | fuel+1, c :: cs =>
    if c = '"' then some ([], cs)
    else if c = '\\' then
      match cs with
      | [] => none
      | e :: cs' =>
        if e = '"' then (parseStrBody fuel cs').map fun p => ('"' :: p.1, p.2)
        else if e = '\\' then (parseStrBody fuel cs').map fun p => ('\\' :: p.1, p.2)
        else if e = '/' then (parseStrBody fuel cs').map fun p => ('/' :: p.1, p.2)
        else if e = 'n' then (parseStrBody fuel cs').map fun p => ('\n' :: p.1, p.2)
        else if e = 'r' then (parseStrBody fuel cs').map fun p => ('\r' :: p.1, p.2)
        else if e = 't' then (parseStrBody fuel cs').map fun p => ('\t' :: p.1, p.2)
        else if e = 'b' then (parseStrBody fuel cs').map fun p => (Char.ofNat 8 :: p.1, p.2)
        else if e = 'f' then (parseStrBody fuel cs').map fun p => (Char.ofNat 12 :: p.1, p.2)
        else if e = 'u' then
          match cs' with
          | h1 :: h2 :: h3 :: h4 :: cs'' =>
            match hexVal h1, hexVal h2, hexVal h3, hexVal h4 with
            | some a, some b, some c2, some d =>
              (parseStrBody fuel cs'').map fun p =>
                (Char.ofNat (((a * 16 + b) * 16 + c2) * 16 + d) :: p.1, p.2)
            | _, _, _, _ => none
          | _ => none
        else none
    else (parseStrBody fuel cs).map fun p => (c :: p.1, p.2)

def scanDigits : List Char → List Char × List Char
  | [] => ([], [])
  | c :: cs =>
    if c.isDigit then
      let p := scanDigits cs
      (c :: p.1, p.2)
    else ([], c :: cs)

mutual
def parseVal : Nat → List Char → Option (JVal × List Char)
  | 0, _ => none
  | fuel+1, input =>
    match skipWs input with
    | [] => none
    | c :: cs =>
      if c = 'n' then
        match cs with
        | 'u' :: 'l' :: 'l' :: rest => some (.jnull, rest)
        | _ => none
      else if c = 't' then
        match cs with
        | 'r' :: 'u' :: 'e' :: rest => some (.jbool true, rest)
        | _ => none
      else if c = 'f' then
        match cs with
        | 'a' :: 'l' :: 's' :: 'e' :: rest => some (.jbool false, rest)
        | _ => none
      else if c = '"' then (parseStrBody (cs.length + 1) cs).map fun p => (.jstr ⟨p.1⟩, p.2)
      else if c = '[' then
        match skipWs cs with
        | [] => none
        | d :: ds =>
          if d = ']' then some (.jarr [], ds)
          else (parseElems fuel (d :: ds)).map fun p => (.jarr p.1, p.2)
      else if c = '{' then
        match skipWs cs with
        | [] => none
        | d :: ds =>
          if d = '}' then some (.jobj [], ds)
          else (parseFields fuel (d :: ds)).map fun p => (.jobj p.1, p.2)
      else if c = '-' then
        match scanDigits cs with
        | ([], _) => none
        | (ds, rest) => some (.jnum (-(digitsVal ds : Int)), rest)
      else if c.isDigit then
        match scanDigits (c :: cs) with
        | (ds, rest) => some (.jnum ((digitsVal ds : Int)), rest)
      else none
def parseElems : Nat → List Char → Option (List JVal × List Char)
  | 0, _ => none
  | fuel+1, input =>
    match parseVal fuel input with
    | none => none
    | some (v, r) =>
      match skipWs r with
      | ',' :: r2 => (parseElems fuel r2).map fun p => (v :: p.1, p.2)
      | ']' :: r2 => some ([v], r2)
      | _ => none
def parseFields : Nat → List Char → Option (List (String × JVal) × List Char)
  | 0, _ => none
  | fuel+1, input =>
    match skipWs input with
    | '"' :: cs =>
      match parseStrBody (cs.length + 1) cs with
      | none => none
      | some (k, r) =>
        match skipWs r with
        | ':' :: r2 =>
          match parseVal fuel r2 with
          | none => none
          | some (v, r3) =>
            match skipWs r3 with
            | ',' :: r4 => (parseFields fuel r4).map fun p => ((⟨k⟩, v) :: p.1, p.2)
            | '}' :: r4 => some ([(⟨k⟩, v)], r4)
            | _ => none
        | _ => none
    | _ => none
end

/-- `json.loads`: parse the whole text, allowing trailing whitespace only. -/
def loads (s : String) : Option JVal :=
  match parseVal (s.length + 1) s.data with
  | some (v, rest) => if skipWs rest = [] then some v else none
  | none => none

/-! ### Reading back what `dumps` wrote -/

theorem isDigit_ne {c x : Char} (h : c.isDigit = true) (hx : x.isDigit = false) : ¬ c = x := by
  intro he
  subst he
  rw [h] at hx
  cases hx

theorem digit_not_jsonWs {c : Char} (h : c.isDigit = true) : jsonWs c = false := by
  by_contra hw
  rw [Bool.not_eq_false, jsonWs] at hw
  simp only [Bool.or_eq_true, decide_eq_true_eq] at hw
  rcases hw with ((rfl | rfl) | rfl) | rfl <;> simp [Char.isDigit] at h

theorem skipWs_cons {c : Char} {l : List Char} (h : jsonWs c = false) :
    skipWs (c :: l) = c :: l := by
  simp [skipWs, List.dropWhile_cons, h]

theorem skipWs_cons_ws {c : Char} {l : List Char} (h : jsonWs c = true) :
    skipWs (c :: l) = skipWs l := by
  simp [skipWs, List.dropWhile_cons, h]

/-- The next character (if any) is not a digit: what the number scanner needs
of its right context. -/
def headNotDigit (l : List Char) : Prop := ∀ c, l.head? = some c → c.isDigit = false

theorem headNotDigit_nil : headNotDigit [] := by
  intro d hd
  simp at hd

theorem headNotDigit_cons {c : Char} {l : List Char} (h : c.isDigit = false) :
    headNotDigit (c :: l) := by
  intro d hd
  rw [List.head?_cons] at hd
  cases hd
  exact h

theorem hexVal_hexDigitChar {d : Nat} (h : d < 16) : hexVal (hexDigitChar d) = some d := by
  interval_cases d <;> decide

theorem psbQuote (f : Nat) (X : List Char) :
    parseStrBody (f+1) (['\\', '"'] ++ X) =
      (parseStrBody f X).map fun p => ('"' :: p.1, p.2) := rfl

theorem psbBack (f : Nat) (X : List Char) :
    parseStrBody (f+1) (['\\', '\\'] ++ X) =
      (parseStrBody f X).map fun p => ('\\' :: p.1, p.2) := rfl

theorem psbN (f : Nat) (X : List Char) :
    parseStrBody (f+1) (['\\', 'n'] ++ X) =
      (parseStrBody f X).map fun p => ('\n' :: p.1, p.2) := rfl

theorem psbR (f : Nat) (X : List Char) :
    parseStrBody (f+1) (['\\', 'r'] ++ X) =
      (parseStrBody f X).map fun p => ('\r' :: p.1, p.2) := rfl

theorem psbT (f : Nat) (X : List Char) :
    parseStrBody (f+1) (['\\', 't'] ++ X) =
      (parseStrBody f X).map fun p => ('\t' :: p.1, p.2) := rfl

theorem psbB (f : Nat) (X : List Char) :
    parseStrBody (f+1) (['\\', 'b'] ++ X) =
      (parseStrBody f X).map fun p => (Char.ofNat 8 :: p.1, p.2) := rfl

theorem psbF (f : Nat) (X : List Char) :
    parseStrBody (f+1) (['\\', 'f'] ++ X) =
      (parseStrBody f X).map fun p => (Char.ofNat 12 :: p.1, p.2) := rfl

theorem psbU (f : Nat) (h1 h2 h3 h4 : Char) (X : List Char) :
    parseStrBody (f+1) (['\\', 'u', h1, h2, h3, h4] ++ X) =
      (match hexVal h1, hexVal h2, hexVal h3, hexVal h4 with
        | some a, some b, some c2, some d =>
          (parseStrBody f X).map fun p =>
            (Char.ofNat (((a * 16 + b) * 16 + c2) * 16 + d) :: p.1, p.2)
        | _, _, _, _ => none) := rfl

theorem psbDefault (f : Nat) {c : Char} (h1 : ¬ c = '"') (h2 : ¬ c = '\\') (X : List Char) :
    parseStrBody (f+1) (c :: X) = (parseStrBody f X).map fun p => (c :: p.1, p.2) := by
  simp only [parseStrBody]
  rw [if_neg h1, if_neg h2]

theorem parseStrBody_esc (l : List Char) : ∀ fuel rest, l.length < fuel →
    parseStrBody fuel (l.flatMap escChar ++ '"' :: rest) = some (l, rest) := by
  induction l with
  | nil =>
    intro fuel rest hf
    obtain ⟨f, rfl⟩ : ∃ f, fuel = f + 1 := ⟨fuel - 1, by omega⟩
    rw [List.flatMap_nil, List.nil_append]
    rfl
  | cons c t ih =>
    intro fuel rest hf
    obtain ⟨f, rfl⟩ : ∃ f, fuel = f + 1 := ⟨fuel - 1, by omega⟩
    have hft : t.length < f := by
      rw [List.length_cons] at hf
      omega
    rw [List.flatMap_cons, List.append_assoc]
    by_cases h1 : c = '"'
    · subst h1
      rw [show escChar '"' = ['\\', '"'] from rfl, psbQuote, ih f rest hft]
      rfl
    · by_cases h2 : c = '\\'
      · subst h2
        rw [show escChar '\\' = ['\\', '\\'] from rfl, psbBack, ih f rest hft]
        rfl
      · by_cases h3 : c = '\n'
        · subst h3
          rw [show escChar '\n' = ['\\', 'n'] from rfl, psbN, ih f rest hft]
          rfl
        · by_cases h4 : c = '\r'
          · subst h4
            rw [show escChar '\r' = ['\\', 'r'] from rfl, psbR, ih f rest hft]
            rfl
          · by_cases h5 : c = '\t'
            · subst h5
              rw [show escChar '\t' = ['\\', 't'] from rfl, psbT, ih f rest hft]
              rfl
            · by_cases h6 : c = Char.ofNat 8
              · subst h6
                rw [show escChar (Char.ofNat 8) = ['\\', 'b'] from rfl, psbB, ih f rest hft]
                rfl
              · by_cases h7 : c = Char.ofNat 12
                · subst h7
                  rw [show escChar (Char.ofNat 12) = ['\\', 'f'] from rfl, psbF,
                    ih f rest hft]
                  rfl
                · by_cases h8 : c.toNat < 32
                  · rw [escChar, if_neg h1, if_neg h2, if_neg h3, if_neg h4, if_neg h5,
                      if_neg h6, if_neg h7, if_pos h8, psbU,
                      hexVal_hexDigitChar (show c.toNat / 16 < 16 by omega),
                      hexVal_hexDigitChar (show c.toNat % 16 < 16 by omega)]
                    rw [show (match hexVal '0', hexVal '0', some (c.toNat / 16),
                          some (c.toNat % 16) with
                        | some a, some b, some c2, some d =>
                          (parseStrBody f (t.flatMap escChar ++ '"' :: rest)).map fun p =>
                            (Char.ofNat (((a * 16 + b) * 16 + c2) * 16 + d) :: p.1, p.2)
                        | _, _, _, _ => none) =
                        (parseStrBody f (t.flatMap escChar ++ '"' :: rest)).map fun p =>
                          (Char.ofNat (((0 * 16 + 0) * 16 + c.toNat / 16) * 16 +
                            c.toNat % 16) :: p.1, p.2) from rfl]
                    rw [ih f rest hft]
                    simp only [Option.map_some']
                    rw [show ((0 * 16 + 0) * 16 + c.toNat / 16) * 16 + c.toNat % 16 =
                      c.toNat from by omega, Char.ofNat_toNat]
                  · rw [escChar, if_neg h1, if_neg h2, if_neg h3, if_neg h4, if_neg h5,
                      if_neg h6, if_neg h7, if_neg h8, List.singleton_append,
                      psbDefault f h1 h2, ih f rest hft]
                    rfl

theorem scanDigits_split {ds rest : List Char}
    (hds : ∀ c ∈ ds, c.isDigit = true) (hrest : headNotDigit rest) :
    scanDigits (ds ++ rest) = (ds, rest) := by
  induction ds with
  | nil =>
    cases hr : rest with
    | nil => rfl
    | cons r rt =>
      subst hr
      have hnd := hrest r rfl
      rw [List.nil_append]
      simp [scanDigits, hnd]
  | cons d dt ih =>
    have hd : d.isDigit = true := hds d (by simp)
    rw [List.cons_append]
    simp only [scanDigits, hd, if_true]
    rw [ih (fun c hc => hds c (by simp [hc]))]

theorem parseVal_ws {f : Nat} {c : Char} (Y : List Char) (h : jsonWs c = true) :
    parseVal (f+1) (c :: Y) = parseVal (f+1) Y := by
  simp only [parseVal]
  rw [skipWs_cons_ws h]

theorem parseElems_ws {f : Nat} {c : Char} (Y : List Char) (h : jsonWs c = true) :
    parseElems f (c :: Y) = parseElems f Y := by
  cases f with
  | zero => rfl
  | succ f =>
    simp only [parseElems]
    cases f with
    | zero => rfl
    | succ g => rw [parseVal_ws Y h]

theorem parseFields_ws {f : Nat} {c : Char} (Y : List Char) (h : jsonWs c = true) :
    parseFields f (c :: Y) = parseFields f Y := by
  cases f with
  | zero => rfl
  | succ f =>
    simp only [parseFields]
    rw [skipWs_cons_ws h]

theorem parseVal_num (n : Int) (f : Nat) (rest : List Char) (hrest : headNotDigit rest) :
    parseVal (f+1) (intChars n ++ rest) = some (.jnum n, rest) := by
  by_cases hn : n < 0
  · rw [intChars, if_pos hn, List.cons_append]
    obtain ⟨c, ds, hcd⟩ : ∃ c ds, decDigits (-n).toNat = c :: ds := by
      cases h : decDigits (-n).toNat with
      | nil => exact absurd h (decDigits_ne_nil _)
      | cons a t => exact ⟨a, t, rfl⟩
    show (match scanDigits (decDigits (-n).toNat ++ rest) with
      | ([], _) => none
      | (ds, r) => some (JVal.jnum (-(digitsVal ds : Int)), r)) = _
    rw [scanDigits_split (decDigits_all_digit _) hrest, hcd]
    show some (JVal.jnum (-(digitsVal (c :: ds) : Int)), rest) = _
    rw [← hcd, digitsVal_decDigits]
    have : ((((-n).toNat : Nat)) : Int) = -n := Int.toNat_of_nonneg (by omega)
    rw [this, neg_neg]
  · rw [intChars, if_neg hn]
    obtain ⟨c, ds, hcd⟩ : ∃ c ds, decDigits n.toNat = c :: ds := by
      cases h : decDigits n.toNat with
      | nil => exact absurd h (decDigits_ne_nil _)
      | cons a t => exact ⟨a, t, rfl⟩
    have hc : c.isDigit = true := decDigits_all_digit _ c (by rw [hcd]; simp)
    rw [hcd, List.cons_append]
    simp only [parseVal]
    rw [skipWs_cons (digit_not_jsonWs hc)]
    simp only []
    rw [if_neg (isDigit_ne hc (by decide)), if_neg (isDigit_ne hc (by decide)),
      if_neg (isDigit_ne hc (by decide)), if_neg (isDigit_ne hc (by decide)),
      if_neg (isDigit_ne hc (by decide)), if_neg (isDigit_ne hc (by decide)),
      if_neg (isDigit_ne hc (by decide)), if_pos hc]
    rw [show c :: (ds ++ rest) = (c :: ds) ++ rest from rfl,
      scanDigits_split (by rw [← hcd]; exact decDigits_all_digit _) hrest]
    show some (JVal.jnum ((digitsVal (c :: ds) : Int)), rest) = _
    rw [← hcd, digitsVal_decDigits]
    rw [Int.toNat_of_nonneg (by omega)]

theorem parseVal_quote (f : Nat) (Y : List Char) :
    parseVal (f+1) ('"' :: Y) =
      (parseStrBody (Y.length + 1) Y).map fun p => (JVal.jstr ⟨p.1⟩, p.2) := rfl

theorem escChar_length_pos (c : Char) : 1 ≤ (escChar c).length := by
  rw [escChar]
  split_ifs <;> simp

theorem length_le_flatMap_esc (l : List Char) : l.length ≤ (l.flatMap escChar).length := by
  induction l with
  | nil => simp
  | cons c t ih =>
    rw [List.flatMap_cons, List.length_append, List.length_cons]
    have := escChar_length_pos c
    omega

theorem nodes_pos (v : JVal) : 1 ≤ nodes v := by
  cases v <;> simp [nodes]

/-- Every dumped value starts with a character that is not whitespace and not
a closing bracket. -/
theorem dumpVal_head (v : JVal) :
    ∃ e t, dumpVal v = e :: t ∧ jsonWs e = false ∧ ¬ e = ']' ∧ ¬ e = '}' := by
  cases v with
  | jnull => exact ⟨'n', ['u', 'l', 'l'], by simp [dumpVal], by decide, by decide, by decide⟩
  | jbool b =>
    cases b
    · exact ⟨'f', ['a', 'l', 's', 'e'], by simp [dumpVal], by decide, by decide, by decide⟩
    · exact ⟨'t', ['r', 'u', 'e'], by simp [dumpVal], by decide, by decide, by decide⟩
  | jnum n =>
    by_cases hn : n < 0
    · exact ⟨'-', decDigits (-n).toNat, by simp [dumpVal, intChars, hn], by decide,
        by decide, by decide⟩
    · obtain ⟨c, ds, hcd⟩ : ∃ c ds, decDigits n.toNat = c :: ds := by
        cases h : decDigits n.toNat with
        | nil => exact absurd h (decDigits_ne_nil _)
        | cons a t => exact ⟨a, t, rfl⟩
      have hc : c.isDigit = true := decDigits_all_digit _ c (by rw [hcd]; simp)
      exact ⟨c, ds, by simp [dumpVal, intChars, hn, hcd], digit_not_jsonWs hc,
        isDigit_ne hc (by decide), isDigit_ne hc (by decide)⟩
  | jstr s =>
    exact ⟨'"', escString s ++ ['"'], by simp [dumpVal], by decide, by decide, by decide⟩
  | jarr es =>
    cases es with
    | nil => exact ⟨'[', [']'], by simp [dumpVal], by decide, by decide, by decide⟩
    | cons v tl =>
      exact ⟨'[', (dumpVal v ++ dumpElems tl) ++ [']'], by simp [dumpVal], by decide,
        by decide, by decide⟩
  | jobj fs =>
    cases fs with
    | nil => exact ⟨'{', ['}'], by simp [dumpVal], by decide, by decide, by decide⟩
    | cons kv tl =>
      obtain ⟨k, w⟩ := kv
      exact ⟨'{', (dumpField k w ++ dumpFields tl) ++ ['}'], by simp [dumpVal], by decide,
        by decide, by decide⟩

mutual
theorem nodes_le_dump (v : JVal) : nodes v ≤ (dumpVal v).length + 1 := by
  cases v with
  | jnull => simp [nodes]
  | jbool b => simp [nodes]
  | jnum n => simp [nodes]
  | jstr s => simp [nodes]
  | jarr es =>
    cases es with
    | nil => simp [nodes, nodesE, dumpVal]
    | cons v tl =>
      have h1 := nodes_le_dump v
      rcases eq_or_ne tl [] with rfl | hne
      · simp [nodes, nodesE, dumpVal, dumpElems]
        omega
      · have h2 := nodesE_le_dump tl hne
        simp [nodes, nodesE, dumpVal]
        omega
  | jobj fs =>
    cases fs with
    | nil => simp [nodes, nodesF, dumpVal]
    | cons kv tl =>
      obtain ⟨k, w⟩ := kv
      have h1 := nodes_le_dump w
      rcases eq_or_ne tl [] with rfl | hne
      · simp [nodes, nodesF, dumpVal, dumpFields, dumpField]
        omega
      · have h2 := nodesF_le_dump tl hne
        simp [nodes, nodesF, dumpVal, dumpField]
        omega
theorem nodesE_le_dump (es : List JVal) (h : es ≠ []) :
    nodesE es ≤ (dumpElems es).length := by
  cases es with
  | nil => exact absurd rfl h
  | cons v tl =>
    have h1 := nodes_le_dump v
    rcases eq_or_ne tl [] with rfl | hne
    · simp [nodesE, dumpElems]
      omega
    · have h2 := nodesE_le_dump tl hne
      simp [nodesE, dumpElems]
      omega
theorem nodesF_le_dump (fs : List (String × JVal)) (h : fs ≠ []) :
    nodesF fs ≤ (dumpFields fs).length := by
  cases fs with
  | nil => exact absurd rfl h
  | cons kv tl =>
    obtain ⟨k, w⟩ := kv
    have h1 := nodes_le_dump w
    rcases eq_or_ne tl [] with rfl | hne
    · simp [nodesF, dumpFields, dumpField]
      omega
    · have h2 := nodesF_le_dump tl hne
      simp [nodesF, dumpFields, dumpField]
      omega
end

theorem parseVal_lbrack (f : Nat) (X : List Char) :
    parseVal (f+1) ('[' :: X) =
      (match skipWs X with
        | [] => none
        | d :: ds =>
          if d = ']' then some (JVal.jarr [], ds)
          else (parseElems f (d :: ds)).map fun p => (JVal.jarr p.1, p.2)) := rfl

theorem parseVal_lbrace (f : Nat) (X : List Char) :
    parseVal (f+1) ('{' :: X) =
      (match skipWs X with
        | [] => none
        | d :: ds =>
          if d = '}' then some (JVal.jobj [], ds)
          else (parseFields f (d :: ds)).map fun p => (JVal.jobj p.1, p.2)) := rfl


/-- Reading back dumped text, stated for all three parsers at once and proved
by induction on the fuel, which every recursive parser call strictly
decreases. -/
theorem parse_dump_all : ∀ fuel : Nat,
    (∀ (v : JVal) (rest : List Char), nodes v ≤ fuel → headNotDigit rest →
      parseVal fuel (dumpVal v ++ rest) = some (v, rest)) ∧
    (∀ (w : JVal) (tl : List JVal) (rest : List Char), nodesE (w :: tl) ≤ fuel →
      parseElems fuel ((dumpVal w ++ dumpElems tl) ++ (']' :: rest)) = some (w :: tl, rest)) ∧
    (∀ (k : String) (w : JVal) (tl : List (String × JVal)) (rest : List Char),
      nodesF ((k, w) :: tl) ≤ fuel →
      parseFields fuel ((dumpField k w ++ dumpFields tl) ++ ('}' :: rest)) =
        some ((k, w) :: tl, rest)) := by
  intro fuel
  induction fuel with
  | zero =>
    refine ⟨?_, ?_, ?_⟩
    · intro v rest hfuel _
      exact absurd hfuel (by have := nodes_pos v; omega)
    · intro w tl rest hfuel
      simp only [nodesE] at hfuel
      exact absurd hfuel (by omega)
    · intro k w tl rest hfuel
      simp only [nodesF] at hfuel
      exact absurd hfuel (by omega)
  | succ f ih =>
    obtain ⟨ihV, ihE, ihF⟩ := ih
    refine ⟨?_, ?_, ?_⟩
    · intro v rest hfuel hrest
      cases v with
      | jnull =>
        rw [show dumpVal JVal.jnull = ['n', 'u', 'l', 'l'] from by simp [dumpVal]]
        rfl
      | jbool b =>
        cases b
        · rw [show dumpVal (JVal.jbool false) = ['f', 'a', 'l', 's', 'e']
            from by simp [dumpVal]]
          rfl
        · rw [show dumpVal (JVal.jbool true) = ['t', 'r', 'u', 'e'] from by simp [dumpVal]]
          rfl
      | jnum n =>
        rw [show dumpVal (JVal.jnum n) = intChars n from by simp [dumpVal]]
        exact parseVal_num n f rest hrest
      | jstr s =>
        rw [show dumpVal (JVal.jstr s) = '"' :: (escString s ++ ['"']) from by simp [dumpVal]]
        rw [List.cons_append, List.append_assoc,
          show (['"'] : List Char) ++ rest = '"' :: rest from rfl, parseVal_quote,
          show escString s = s.data.flatMap escChar from rfl]
        rw [parseStrBody_esc s.data _ rest (by
          have := length_le_flatMap_esc s.data
          simp only [List.length_append, List.length_cons]
          omega)]
        rfl
      | jarr es =>
        cases es with
        | nil =>
          rw [show dumpVal (JVal.jarr []) = ['[', ']'] from by simp [dumpVal]]
          rfl
        | cons w tl =>
          have hfe := hfuel
          simp only [nodes] at hfe
          rw [show dumpVal (JVal.jarr (w :: tl)) =
              '[' :: ((dumpVal w ++ dumpElems tl) ++ [']']) from by simp [dumpVal]]
          rw [List.cons_append, parseVal_lbrack]
          obtain ⟨e, t, het, hws, hne1, _⟩ := dumpVal_head w
          rw [show ((dumpVal w ++ dumpElems tl) ++ [']']) ++ rest
              = dumpVal w ++ (dumpElems tl ++ (']' :: rest)) from by simp]
          rw [het, List.cons_append, skipWs_cons hws]
          simp only []
          rw [if_neg hne1]
          rw [show e :: (t ++ (dumpElems tl ++ (']' :: rest)))
              = (dumpVal w ++ dumpElems tl) ++ (']' :: rest) from by rw [het]; simp]
          rw [ihE w tl rest (by omega)]
          rfl
      | jobj fs =>
        cases fs with
        | nil =>
          rw [show dumpVal (JVal.jobj []) = ['{', '}'] from by simp [dumpVal]]
          rfl
        | cons kv tl =>
          obtain ⟨k, w⟩ := kv
          have hfe := hfuel
          simp only [nodes] at hfe
          rw [show dumpVal (JVal.jobj ((k, w) :: tl)) =
              '{' :: ((dumpField k w ++ dumpFields tl) ++ ['}']) from by simp [dumpVal]]
          rw [List.cons_append, parseVal_lbrace]
          rw [show ((dumpField k w ++ dumpFields tl) ++ ['}']) ++ rest
              = dumpField k w ++ (dumpFields tl ++ ('}' :: rest)) from by simp]
          rw [show dumpField k w = '"' :: (escString k ++ ('"' :: ':' :: ' ' :: dumpVal w))
              from by simp [dumpField], List.cons_append, skipWs_cons (by decide)]
          simp only []
          rw [if_neg (show ¬ '"' = '}' from by decide)]
          rw [show '"' :: ((escString k ++ ('"' :: ':' :: ' ' :: dumpVal w)) ++
                (dumpFields tl ++ ('}' :: rest)))
              = (dumpField k w ++ dumpFields tl) ++ ('}' :: rest) from by simp [dumpField]]
          rw [ihF k w tl rest (by omega)]
          rfl
    · intro w tl rest hfuel
      have hfe := hfuel
      simp only [nodesE] at hfe
      have hnd : headNotDigit (dumpElems tl ++ (']' :: rest)) := by
        cases tl with
        | nil =>
          rw [show dumpElems [] = ([] : List Char) from by simp [dumpElems],
            List.nil_append]
          exact headNotDigit_cons (by decide)
        | cons w2 t2 =>
          rw [show dumpElems (w2 :: t2) = ',' :: ' ' :: (dumpVal w2 ++ dumpElems t2)
              from by simp [dumpElems], List.cons_append]
          exact headNotDigit_cons (by decide)
      simp only [parseElems]
      rw [List.append_assoc, ihV w _ (by omega) hnd]
      simp only []
      cases tl with
      | nil =>
        rw [show dumpElems [] ++ (']' :: rest) = ']' :: rest from by simp [dumpElems],
          skipWs_cons (by decide)]
        rfl
      | cons w2 t2 =>
        rw [show dumpElems (w2 :: t2) = ',' :: ' ' :: (dumpVal w2 ++ dumpElems t2)
            from by simp [dumpElems], List.cons_append, List.cons_append,
          skipWs_cons (by decide)]
        simp only []
        rw [parseElems_ws _ (by decide), ihE w2 t2 rest (by simp only [nodesE] at hfe ⊢; omega)]
        rfl
    · intro k w tl rest hfuel
      have hfe := hfuel
      simp only [nodesF] at hfe
      have hndw : headNotDigit (dumpFields tl ++ ('}' :: rest)) := by
        cases tl with
        | nil =>
          rw [show dumpFields [] = ([] : List Char) from by simp [dumpFields],
            List.nil_append]
          exact headNotDigit_cons (by decide)
        | cons kv2 t2 =>
          obtain ⟨k2, w2⟩ := kv2
          rw [show dumpFields ((k2, w2) :: t2)
              = ',' :: ' ' :: (dumpField k2 w2 ++ dumpFields t2)
              from by simp [dumpFields], List.cons_append]
          exact headNotDigit_cons (by decide)
      simp only [parseFields]
      rw [show (dumpField k w ++ dumpFields tl) ++ ('}' :: rest)
          = dumpField k w ++ (dumpFields tl ++ ('}' :: rest)) from by simp]
      rw [show dumpField k w = '"' :: (escString k ++ ('"' :: ':' :: ' ' :: dumpVal w))
          from by simp [dumpField], List.cons_append, skipWs_cons (by decide)]
      simp only []
      rw [show (escString k ++ ('"' :: ':' :: ' ' :: dumpVal w)) ++
            (dumpFields tl ++ ('}' :: rest))
          = escString k ++ ('"' :: ':' :: ' ' :: (dumpVal w ++ (dumpFields tl ++ ('}' :: rest))))
          from by simp]
      rw [show escString k = k.data.flatMap escChar from rfl]
      rw [parseStrBody_esc k.data _ _ (by
        have := length_le_flatMap_esc k.data
        simp only [List.length_append, List.length_cons]
        omega)]
      simp only []
      rw [skipWs_cons (show jsonWs ':' = false from by decide)]
      simp only []
      obtain ⟨g, rfl⟩ : ∃ g, f = g + 1 := ⟨f - 1, by have := nodes_pos w; omega⟩
      rw [parseVal_ws _ (show jsonWs ' ' = true from by decide),
        ihV w _ (by omega) hndw]
      simp only []
      cases tl with
      | nil =>
        rw [show dumpFields [] ++ ('}' :: rest) = '}' :: rest from by simp [dumpFields],
          skipWs_cons (by decide)]
        rfl
      | cons kv2 t2 =>
        obtain ⟨k2, w2⟩ := kv2
        rw [show dumpFields ((k2, w2) :: t2)
            = ',' :: ' ' :: (dumpField k2 w2 ++ dumpFields t2)
            from by simp [dumpFields], List.cons_append, List.cons_append,
          skipWs_cons (by decide)]
        simp only []
        rw [parseFields_ws _ (by decide),
          ihF k2 w2 t2 rest (by simp only [nodesF] at hfe ⊢; omega)]
        rfl

/-- Full round trip: reparsing the dump of any value recovers the value. -/
theorem loads_dumps (v : JVal) : loads (dumps v) = some v := by
  have h := (parse_dump_all ((dumpVal v).length + 1)).1 v [] (nodes_le_dump v) headNotDigit_nil
  rw [List.append_nil] at h
  simp only [loads]
  rw [show (dumps v).length = (dumpVal v).length from rfl,
    show (dumps v).data = dumpVal v from rfl, h]
  rfl

/-! ## Flatteners and the Excel exporters

A `Sheet` records what one `df.to_excel(writer, sheet_name=..., index=False)`
call writes: the sheet name, the DataFrame's columns, and its rows.  A row is
kept as the association list the DataFrame row was built from; a column missing
from a row renders as an empty cell. -/

structure Sheet where
  sheetName : String
  columns : List String
  rows : List Record

/-- `pd.DataFrame` / `pd.json_normalize` column union: keys in first-seen
order, without duplicates. -/
def addCol (acc : List String) (c : String) : List String :=
  if c ∈ acc then acc else acc ++ [c]

def columnsOf (rows : List Record) : List String :=
  ((rows.map fun r => r.map Prod.fst).flatten).foldl addCol []

namespace GcpInventory

/-- `isinstance(v, (dict, list))` in `resources_to_excel`. -/
def isNested : JVal → Bool
  | .jobj _ => true
  | .jarr _ => true
  | _ => false

/-- One cell of the flattened row: nested values become their
`json.dumps(v, ensure_ascii=False)` text, scalars pass through. -/
def flattenCell (v : JVal) : JVal :=
  if isNested v then .jstr (dumps v) else v

/-- The row dict built by the `for k, v in r.items()` loop. -/
def flattenRow (r : Record) : Record :=
  r.map fun kv => (kv.1, flattenCell kv.2)

/-- `gcp_inventory.inventory.resources_to_excel`: a single sheet named by
`sanitize_sheet_name('assets', set())`; an empty input becomes
`pd.DataFrame([{}])`, one row with no columns. -/
def resources_to_excel (resources : List Record) : List Sheet :=
  if resources.isEmpty then
    [⟨(sanitize_sheet_name "assets" []).1, [], [[]]⟩]
  else
    let rows := resources.map flattenRow
    [⟨(sanitize_sheet_name "assets" []).1, columnsOf rows, rows⟩]

end GcpInventory

namespace Inventory

/-- Key-path join with the `.` separator, as `pd.json_normalize` names the
columns produced from a nested mapping. -/
def dotKeys (k : String) (r : Record) : Record :=
  r.map fun kv => (k ++ "." ++ kv.1, kv.2)

mutual
/-- `pd.json_normalize` on one record: nested mappings are expanded
recursively into dotted column names; any other value (including a list)
stays in a single cell. -/
def normalizeRow : Record → Record
  | [] => []
  | (k, v) :: tl => normalizeField k v ++ normalizeRow tl
def normalizeField (k : String) : JVal → Record
  | .jobj fs => dotKeys k (normalizeRow fs)
  | v => [(k, v)]
end

def json_normalize (items : List Record) : List Record := items.map normalizeRow

/-- The per-key sheet loop of `inventory.resources_to_excel`, on inputs whose
values are lists of dicts (which is what `gather_resources` produces): a
non-empty list of dicts goes through `pd.json_normalize`, an empty list
through `pd.DataFrame([])` (no rows, no columns); the used-name set threads
through `sanitize`. -/
def sheetsGo : List (String × List Record) → List String → List Sheet
  | [], _ => []
  | (key, items) :: tl, used =>
    let rows := if items.isEmpty then [] else json_normalize items
    let p := sanitize key used
    ⟨p.1, columnsOf rows, rows⟩ :: sheetsGo tl p.2

def resources_to_excel (resources : List (String × List Record)) : List Sheet :=
  sheetsGo resources []

end Inventory

/-! ## The two collectors (broad-search mode) -/

namespace Inventory

/-- `inventory.gather_asset_resources`, Cloud Asset client path: the external
iterator is modelled by the records it yields before it either finishes
(`iterError = none`) or raises (`iterError = some e`).  The `except` clause
prints the error and falls through to `return resources`, so the partial list
is returned either way. -/
def gather_asset_resources (yielded : List Record) (iterError : Option String) :
    List Record :=
  match iterError with
  | some _ => yielded
  | none => yielded

end Inventory

namespace GcpInventory

/-- `gcp_inventory.inventory.collect_assets`: the same iterator model, but the
`except` clause re-raises, so an iterator error propagates to the caller. -/
def collect_assets (yielded : List Record) (iterError : Option String) :
    Except String (List Record) :=
  match iterError with
  | some e => .error e
  | none => .ok yielded

end GcpInventory

/-! ## Per-kind collection (`inventory.gather_resources`) -/

namespace Inventory

/-- Outcome of one `run_cmd("gcloud ... list --format=json")` + parse:
`fail` is a command failure or empty output (`if out:` falsy), `badJson` an
output that `json.loads` rejects, `ok` a parsed list. -/
inductive CmdResult where
  | fail
  | badJson
  | ok (items : List Record)

/-- What lands in the resources dict for one kind. -/
def interp : CmdResult → List Record
  | .fail => []
  | .badJson => []
  | .ok items => items

/-- The five external calls one `gather_resources(project)` run makes, plus
the `is_service_enabled(project, 'container.googleapis.com')` answer. -/
structure KindCalls where
  compute : CmdResult
  containerEnabled : Bool
  gke : CmdResult
  functions : CmdResult
  sql : CmdResult
  buckets : CmdResult

def gather_resources (env : KindCalls) : List (String × List Record) :=
  [("compute_instances", interp env.compute),
   ("gke_clusters", if env.containerEnabled then interp env.gke else []),
   ("cloud_functions", interp env.functions),
   ("sql_instances", interp env.sql),
   ("storage_buckets", interp env.buckets)]

inductive Kind where
  | compute
  | gke
  | functions
  | sql
  | buckets
deriving DecidableEq

def keyOf : Kind → String
  | .compute => "compute_instances"
  | .gke => "gke_clusters"
  | .functions => "cloud_functions"
  | .sql => "sql_instances"
  | .buckets => "storage_buckets"

def callOf (env : KindCalls) : Kind → CmdResult
  | .compute => env.compute
  | .gke => env.gke
  | .functions => env.functions
  | .sql => env.sql
  | .buckets => env.buckets

/-- The value `gather_resources` stores under a kind's key. -/
def kindValue (env : KindCalls) : Kind → List Record
  | .compute => interp env.compute
  | .gke => if env.containerEnabled then interp env.gke else []
  | .functions => interp env.functions
  | .sql => interp env.sql
  | .buckets => interp env.buckets

end Inventory

/-! ## The upload delegates -/

namespace Inventory

/-- `inventory.upload_to_gcs`: `if not bucket:` skips with `False`; otherwise
the result is whether `run_cmd` (modelled by `runCp`) succeeded on the
`gcloud storage cp` command. -/
def upload_to_gcs (local_file : String) (bucket : Option String)
    (destination_path : Option String) (runCp : String → Option String) : Bool :=
  match bucket with
  | none => false
  | some b =>
    if b = "" then false
    else
      let dest := match destination_path with
        | some d => "gs://" ++ b ++ "/" ++ d
        | none => "gs://" ++ b ++ "/"
      (runCp ("gcloud storage cp " ++ local_file ++ " " ++ dest)).isSome

end Inventory

namespace GcpInventory

/-- `os.path.basename`: what follows the last `/`. -/
def basename (p : String) : String :=
  ⟨p.data.foldl (fun acc c => if c = '/' then [] else acc ++ [c]) []⟩

/-- `gcp_inventory.inventory.upload_to_gcs`: no bucket check at all; the
destination defaults to the file's base name; the storage call (modelled by
`uploadOp`) raises on failure and the function propagates that. -/
def upload_to_gcs (local_file : String) (bucket_name : String)
    (destination : Option String)
    (uploadOp : String → String → String → Except String Unit) :
    Except String Unit :=
  let dest := match destination with
    | some d => if d = "" then basename local_file else d
    | none => basename local_file
  uploadOp local_file bucket_name dest

end GcpInventory

/-! ## Column-set facts -/

theorem mem_addCol {c x : String} {acc : List String} :
    c ∈ addCol acc x ↔ c ∈ acc ∨ c = x := by
  rw [addCol]
  split_ifs with h
  · constructor
    · exact fun hc => Or.inl hc
    · rintro (hc | rfl)
      · exact hc
      · exact h
  · simp [List.mem_append]

theorem mem_foldl_addCol (l : List String) : ∀ (acc : List String) (c : String),
    c ∈ l.foldl addCol acc ↔ c ∈ acc ∨ c ∈ l := by
  induction l with
  | nil =>
    intro acc c
    simp
  | cons x t ih =>
    intro acc c
    rw [List.foldl_cons, ih, mem_addCol]
    constructor
    · rintro ((h | rfl) | h)
      · exact Or.inl h
      · exact Or.inr (by simp)
      · exact Or.inr (by simp [h])
    · rintro (h | h)
      · exact Or.inl (Or.inl h)
      · rcases List.mem_cons.mp h with rfl | h
        · exact Or.inl (Or.inr rfl)
        · exact Or.inr h

/-- A column appears in the union iff some row has the field. -/
theorem mem_columnsOf {c : String} {rows : List Record} :
    c ∈ columnsOf rows ↔ ∃ r ∈ rows, ∃ v, (c, v) ∈ r := by
  rw [columnsOf, mem_foldl_addCol]
  simp only [List.not_mem_nil, false_or]
  constructor
  · intro h
    obtain ⟨L, hL, hcL⟩ := List.mem_flatten.mp h
    obtain ⟨r, hr, rfl⟩ := List.mem_map.mp hL
    obtain ⟨kv, hkv, hks⟩ := List.mem_map.mp hcL
    refine ⟨r, hr, kv.2, ?_⟩
    rw [← hks]
    exact hkv
  · rintro ⟨r, hr, v, hv⟩
    exact List.mem_flatten.mpr ⟨r.map Prod.fst, List.mem_map_of_mem _ hr,
      List.mem_map_of_mem Prod.fst hv⟩

theorem flattenRow_mem {k : String} {v : JVal} {r : Record} (h : (k, v) ∈ r) :
    (k, GcpInventory.flattenCell v) ∈ GcpInventory.flattenRow r := by
  simp only [GcpInventory.flattenRow]
  exact List.mem_map_of_mem _ h

theorem mem_columns_flattened {c : String} {resources : List Record} :
    c ∈ columnsOf (resources.map GcpInventory.flattenRow) ↔
      ∃ r ∈ resources, ∃ v, (c, v) ∈ r := by
  rw [mem_columnsOf]
  constructor
  · rintro ⟨fr, hfr, v, hv⟩
    obtain ⟨r, hr, rfl⟩ := List.mem_map.mp hfr
    simp only [GcpInventory.flattenRow] at hv
    obtain ⟨kv, hkv, heq⟩ := List.mem_map.mp hv
    have hc : kv.1 = c := congrArg Prod.fst heq
    refine ⟨r, hr, kv.2, ?_⟩
    rw [← hc]
    exact hkv
  · rintro ⟨r, hr, v, hv⟩
    exact ⟨GcpInventory.flattenRow r, List.mem_map_of_mem _ hr,
      GcpInventory.flattenCell v, flattenRow_mem hv⟩

/-- Claim C2, counterexample: `inventory.resources_to_excel` flattens with
`pd.json_normalize`, which DOES expand a nested mapping into an additional
dotted column.  For the single record `{"a": {"b": 1}}` the sheet's column
set is `["a.b"]`, not the union of top-level field names `["a"]`: the nested
value does not occupy a single cell under column `"a"`. -/
theorem claim_C2_counterexample :
    (Inventory.resources_to_excel
      [("assets", [[("a", JVal.jobj [("b", JVal.jnum 1)])]])]).map Sheet.columns
      = [["a.b"]] := by
  have hsan : Inventory.sanitize "assets" [] = ("assets", ["assets"]) := by decide
  simp [Inventory.resources_to_excel, Inventory.sheetsGo, Inventory.json_normalize,
    Inventory.normalizeRow, Inventory.normalizeField, Inventory.dotKeys, hsan,
    columnsOf, addCol]

/-- Claim C2, amended: the module exporter (`gcp_inventory.resources_to_excel`)
satisfies the flattening contract — one sheet, columns exactly the union of
the records' top-level field names, every nested value kept in a single cell
as `json.dumps` text that `json.loads` decodes back to the same structure,
and scalar values passed through.  (The script exporter instead runs
`pd.json_normalize`, which expands nested mappings into extra dotted columns;
see the counterexample.) -/
theorem claim_C2_amended (resources : List Record) (hne : ¬ resources = []) :
    ∃ s : Sheet,
      GcpInventory.resources_to_excel resources = [s] ∧
      s.rows = resources.map GcpInventory.flattenRow ∧
      (∀ c : String, c ∈ s.columns ↔ ∃ r ∈ resources, ∃ v, (c, v) ∈ r) ∧
      (∀ r ∈ resources, ∀ k v, (k, v) ∈ r →
        (GcpInventory.isNested v = true →
          (k, JVal.jstr (dumps v)) ∈ GcpInventory.flattenRow r ∧
            loads (dumps v) = some v) ∧
        (GcpInventory.isNested v = false → (k, v) ∈ GcpInventory.flattenRow r)) := by
  have hemp : resources.isEmpty = false := by
    cases resources with
    | nil => exact absurd rfl hne
    | cons a t => rfl
  refine ⟨⟨(GcpInventory.sanitize_sheet_name "assets" []).1,
    columnsOf (resources.map GcpInventory.flattenRow),
    resources.map GcpInventory.flattenRow⟩, ?_, rfl, ?_, ?_⟩
  · simp [GcpInventory.resources_to_excel, hemp]
  · intro c
    exact mem_columns_flattened
  · intro r _ k v hkv
    constructor
    · intro hn
      refine ⟨?_, loads_dumps v⟩
      have h2 := flattenRow_mem hkv
      rw [GcpInventory.flattenCell, if_pos hn] at h2
      exact h2
    · intro hn
      have h2 := flattenRow_mem hkv
      rw [GcpInventory.flattenCell, if_neg (by simp [hn])] at h2
      exact h2

/-- Witness for C2 (amended): a concrete one-record input with a nested
mapping satisfies the hypothesis and the contract. -/
theorem claim_C2_witness :
    ¬ ([[("a", JVal.jobj [("b", JVal.jnum 1)])]] : List Record) = [] ∧
    ∃ s : Sheet,
      GcpInventory.resources_to_excel
        [[("a", JVal.jobj [("b", JVal.jnum 1)])]] = [s] ∧
      s.rows = ([[("a", JVal.jobj [("b", JVal.jnum 1)])]] : List Record).map
        GcpInventory.flattenRow ∧
      (∀ c : String, c ∈ s.columns ↔
        ∃ r ∈ ([[("a", JVal.jobj [("b", JVal.jnum 1)])]] : List Record),
          ∃ v, (c, v) ∈ r) ∧
      (∀ r ∈ ([[("a", JVal.jobj [("b", JVal.jnum 1)])]] : List Record),
        ∀ k v, (k, v) ∈ r →
        (GcpInventory.isNested v = true →
          (k, JVal.jstr (dumps v)) ∈ GcpInventory.flattenRow r ∧
            loads (dumps v) = some v) ∧
        (GcpInventory.isNested v = false → (k, v) ∈ GcpInventory.flattenRow r)) :=
  ⟨by simp, claim_C2_amended [[("a", JVal.jobj [("b", JVal.jnum 1)])]] (by simp)⟩

/-- Claim C3, counterexample: in the script (`inventory.gather_asset_resources`)
an iterator failure is NOT fatal and NOT propagated — the `except` clause
prints the error and the partial list collected so far is returned as if the
call had succeeded.  Here the stream yields one record and then raises, and
the caller receives that record with no error signal at all. -/
theorem claim_C3_counterexample :
    Inventory.gather_asset_resources [[("name", JVal.jstr "vm1")]] (some "boom")
      = [[("name", JVal.jstr "vm1")]] := rfl

/-- Claim C3, amended: only the module collector (`collect_assets`) re-raises,
making a broad-search failure fatal; the script collector degrades it to a
partial (possibly empty) result. -/
theorem claim_C3_amended (yielded : List Record) (e : String) :
    GcpInventory.collect_assets yielded (some e) = Except.error e ∧
    GcpInventory.collect_assets yielded none = Except.ok yielded ∧
    Inventory.gather_asset_resources yielded (some e) = yielded ∧
    Inventory.gather_asset_resources yielded none = yielded :=
  ⟨rfl, rfl, rfl, rfl⟩

theorem kindValue_mem (env : Inventory.KindCalls) (k : Inventory.Kind) :
    (Inventory.keyOf k, Inventory.kindValue env k) ∈ Inventory.gather_resources env := by
  cases k <;> simp [Inventory.keyOf, Inventory.kindValue, Inventory.gather_resources]

/-- Claim C4: per-kind isolation in `gather_resources`.  If one kind's call
fails, the resulting mapping still holds that kind's key with an empty list,
every other kind's key is present with its own value, and that value does not
depend on the failed kind's call: any environment agreeing on the other calls
and on the service-enabled check yields the same values for them. -/
theorem claim_C4 (env env' : Inventory.KindCalls) (k : Inventory.Kind)
    (hfail : Inventory.callOf env k = Inventory.CmdResult.fail)
    (hagree : ∀ k' : Inventory.Kind, ¬ k' = k →
      Inventory.callOf env' k' = Inventory.callOf env k')
    (hen : env'.containerEnabled = env.containerEnabled) :
    (Inventory.keyOf k, []) ∈ Inventory.gather_resources env ∧
    ∀ k' : Inventory.Kind, ¬ k' = k →
      (Inventory.keyOf k', Inventory.kindValue env k') ∈
        Inventory.gather_resources env ∧
      Inventory.kindValue env' k' = Inventory.kindValue env k' := by
  constructor
  · cases k <;> simp only [Inventory.callOf] at hfail <;>
      simp [Inventory.gather_resources, Inventory.keyOf, Inventory.interp, hfail]
  · intro k' hk
    refine ⟨kindValue_mem env k', ?_⟩
    have h := hagree k' hk
    cases k' <;> simp only [Inventory.callOf] at h <;>
      simp [Inventory.kindValue, h, hen]

/-- Witness for C4: a concrete run where the Cloud SQL call fails while the
compute call succeeds. -/
theorem claim_C4_witness :
    Inventory.callOf ⟨Inventory.CmdResult.ok [[("z", JVal.jnull)]], true,
        Inventory.CmdResult.ok [], Inventory.CmdResult.ok [],
        Inventory.CmdResult.fail, Inventory.CmdResult.ok []⟩ Inventory.Kind.sql
      = Inventory.CmdResult.fail ∧
    ((Inventory.keyOf Inventory.Kind.sql, []) ∈ Inventory.gather_resources
        ⟨Inventory.CmdResult.ok [[("z", JVal.jnull)]], true,
          Inventory.CmdResult.ok [], Inventory.CmdResult.ok [],
          Inventory.CmdResult.fail, Inventory.CmdResult.ok []⟩ ∧
      ∀ k' : Inventory.Kind, ¬ k' = Inventory.Kind.sql →
        (Inventory.keyOf k', Inventory.kindValue
            ⟨Inventory.CmdResult.ok [[("z", JVal.jnull)]], true,
              Inventory.CmdResult.ok [], Inventory.CmdResult.ok [],
              Inventory.CmdResult.fail, Inventory.CmdResult.ok []⟩ k') ∈
          Inventory.gather_resources
            ⟨Inventory.CmdResult.ok [[("z", JVal.jnull)]], true,
              Inventory.CmdResult.ok [], Inventory.CmdResult.ok [],
              Inventory.CmdResult.fail, Inventory.CmdResult.ok []⟩ ∧
        Inventory.kindValue
            ⟨Inventory.CmdResult.ok [[("z", JVal.jnull)]], true,
              Inventory.CmdResult.ok [], Inventory.CmdResult.ok [],
              Inventory.CmdResult.fail, Inventory.CmdResult.ok []⟩ k'
          = Inventory.kindValue
            ⟨Inventory.CmdResult.ok [[("z", JVal.jnull)]], true,
              Inventory.CmdResult.ok [], Inventory.CmdResult.ok [],
              Inventory.CmdResult.fail, Inventory.CmdResult.ok []⟩ k') :=
  ⟨rfl, claim_C4
    ⟨Inventory.CmdResult.ok [[("z", JVal.jnull)]], true, Inventory.CmdResult.ok [],
      Inventory.CmdResult.ok [], Inventory.CmdResult.fail, Inventory.CmdResult.ok []⟩
    ⟨Inventory.CmdResult.ok [[("z", JVal.jnull)]], true, Inventory.CmdResult.ok [],
      Inventory.CmdResult.ok [], Inventory.CmdResult.fail, Inventory.CmdResult.ok []⟩
    Inventory.Kind.sql rfl (fun _ _ => rfl) rfl⟩

/-- Claim C8, counterexample: the script exporter writes NO sheet for an empty
ResourceSet — `inventory.resources_to_excel({})` iterates over nothing, so the
workbook is written with zero sheets, not with a placeholder sheet.  (With
`openpyxl` saving a workbook with no sheet in fact raises; either way there is
no placeholder sheet.) -/
theorem claim_C8_counterexample :
    Inventory.resources_to_excel [] = [] := rfl

/-- Claim C8, amended: only the module exporter produces a placeholder — for
an empty record list `gcp_inventory.resources_to_excel` writes exactly one
sheet, named `"assets"`, holding a single empty row (`pd.DataFrame([{}])`);
the script exporter writes no sheet at all for an empty ResourceSet. -/
theorem claim_C8_amended :
    GcpInventory.resources_to_excel [] = [⟨"assets", [], [[]]⟩] ∧
    Inventory.resources_to_excel [] = [] := by
  constructor
  · have hsan : GcpInventory.sanitize_sheet_name "assets" [] = ("assets", ["assets"]) := by
      decide
    simp [GcpInventory.resources_to_excel, hsan]
  · rfl

/-- Claim C9, counterexample: the module uploader has no "no bucket ⇒ skip"
branch and reports nothing as a boolean — a failing storage call raises and
the error propagates out of `gcp_inventory.upload_to_gcs`. -/
theorem claim_C9_counterexample :
    GcpInventory.upload_to_gcs "inv.xlsx" "b" none
      (fun _ _ _ => Except.error "upload failed") = Except.error "upload failed" := rfl

/-- Claim C9, amended: the script uploader (`inventory.upload_to_gcs`) does
behave as claimed — a missing or empty bucket skips with `False` without
calling the copy at all, and a failed copy yields `False` rather than an
exception.  The module uploader instead requires a bucket and propagates
upload failures (see the counterexample). -/
theorem claim_C9_amended (local_file : String) (dst : Option String)
    (runCp : String → Option String) (b : String) (hb : ¬ b = "")
    (hfail : ∀ cmd, runCp cmd = none) (bucket_name : String) (e : String) :
    Inventory.upload_to_gcs local_file none dst runCp = false ∧
    Inventory.upload_to_gcs local_file (some "") dst runCp = false ∧
    Inventory.upload_to_gcs local_file (some b) dst runCp = false ∧
    GcpInventory.upload_to_gcs local_file bucket_name none
      (fun _ _ _ => Except.error e) = Except.error e := by
  refine ⟨rfl, ?_, ?_, rfl⟩
  · simp [Inventory.upload_to_gcs]
  · simp [Inventory.upload_to_gcs, hb, hfail]

/-- Witness for C9 (amended) at a concrete file, bucket and failing copy. -/
theorem claim_C9_witness :
    ¬ "bkt" = "" ∧
    (∀ cmd : String, (fun _ : String => (none : Option String)) cmd = none) ∧
    (Inventory.upload_to_gcs "inv.xlsx" none none (fun _ => none) = false ∧
     Inventory.upload_to_gcs "inv.xlsx" (some "") none (fun _ => none) = false ∧
     Inventory.upload_to_gcs "inv.xlsx" (some "bkt") none (fun _ => none) = false ∧
     GcpInventory.upload_to_gcs "inv.xlsx" "b2" none
       (fun _ _ _ => Except.error "boom") = Except.error "boom") :=
  ⟨by decide, fun _ => rfl,
    claim_C9_amended "inv.xlsx" none (fun _ => none) "bkt" (by decide)
      (fun _ => rfl) "b2" "boom"⟩
